import Mathlib

/-! # unchained: Django password hashers in Go

A shallow embedding of `src/unchained.go` and of the library functions it
calls, followed by the properties of the hashers and of the dispatch.

Conventions of the embedding:

* a Go `string` (and a `[]byte`) is a list of bytes, `GoString`; the
  conversions `[]byte(s)` and `string(b)` are the identity;
* a Go `int` is an `Int` in the 64-bit range `minInt .. maxInt`;
* a Go `error` is `Option GoString`: `none` is `nil`, `some msg` is an error
  whose message is `msg`;
* the functions of the Go standard library and of `golang.org/x/crypto` are
  written out after their documented behaviour (FIPS 180-4 for the digests,
  RFC 2104 for HMAC, RFC 8018 for PBKDF2, RFC 4648 for base64).
-/

namespace Unchained

/-! ## Strings and integers -/

/-- One Go `byte`. -/
abbrev Byte := Fin 256

/-- A Go `string`: an immutable sequence of bytes. -/
abbrev GoString := List Byte

/-- The bytes of a string literal (its UTF-8 encoding). -/
def str (s : String) : GoString :=
  (s.data.flatMap String.utf8EncodeChar).map (fun b => b.val)

/-- The delimiter `'$'`. -/
def dollar : Byte := 36

/-- The sentinel `'!'`. -/
def bang : Byte := 33

/-- Largest Go `int` (64-bit). -/
def maxInt : Int := 9223372036854775807

/-- Smallest Go `int` (64-bit). -/
def minInt : Int := -9223372036854775808

/-- `strings.Split(s, sep)` for a one-byte separator: the substrings between
the occurrences of `sep`; always at least one field. -/
def Split : GoString → Byte → List GoString
  | [], _ => [[]]
  | c :: cs, sep =>
      if c = sep then [] :: Split cs sep
      else
        match Split cs sep with
        | [] => [[c]]
        | f :: fs => (c :: f) :: fs

/-- `strings.HasPrefix(s, pre)`: `len(s) >= len(pre) && s[:len(pre)] == pre`. -/
def HasPrefix (s pre : GoString) : Bool :=
  decide (pre.length ≤ s.length) && (s.take pre.length == pre)

/-- The digit loop of `strconv`: `ch -= '0'; if ch > 9 then error;
n = n*10 + ch`, the subtraction wrapping around in a byte. -/
def parseDigits : Nat → List Byte → Option Nat
  | n, [] => some n
  | n, c :: cs =>
      if (c.val + 256 - 48) % 256 > 9 then none
      else parseDigits (n * 10 + (c.val + 256 - 48) % 256) cs

/-- `strconv.Atoi(s)`: an optional sign, then at least one decimal digit and
nothing else, the value within the range of `int`; `none` is a non-nil
error (syntax or range). -/
def Atoi (s : GoString) : Option Int :=
  match s with
  | [] => none
  | c :: t =>
      let body := if c = 45 ∨ c = 43 then t else s
      if body.isEmpty then none
      else
        match parseDigits 0 body with
        | none => none
        | some u =>
            if c = 45 then
              if (u : Int) ≤ -minInt then some (-(u : Int)) else none
            else
              if (u : Int) ≤ maxInt then some (u : Int) else none

/-- The digit loop of `fmt` for `%d`: `for u >= 10 { buf[i] = '0' + u%10;
u /= 10 }; buf[i] = '0' + u`, writing from the right. -/
def fmtDigits : Nat → Nat → List Byte → List Byte
  | 0, _, acc => acc
  | fuel + 1, u, acc =>
      if 10 ≤ u then fmtDigits fuel (u / 10) (Fin.ofNat (48 + u % 10) :: acc)
      else Fin.ofNat (48 + u) :: acc

/-- The verb `%d` of `fmt.Sprintf` on an `int`: decimal, `-` for a negative
number, no other sign, no padding. -/
def fmtInt (i : Int) : GoString :=
  if i < 0 then (45 : Byte) :: fmtDigits (i.natAbs + 1) i.natAbs []
  else fmtDigits (i.natAbs + 1) i.natAbs []

/-! ## base64 and the constant-time comparison -/

/-- The alphabet of `base64.StdEncoding`. -/
def encodeStd : GoString :=
  str "ABCDEFGHIJKLMNOPQRSTUVWXYZabcdefghijklmnopqrstuvwxyz0123456789+/"

/-- The padding character `'='` of `base64.StdEncoding`. -/
def stdPadding : Byte := 61

/-- One output character: `enc.encode[v & 0x3F]`. -/
def b64Char (v : Nat) : Byte := encodeStd.getD (v % 64) 0

/-- The position of a character in the alphabet of `base64.StdEncoding` (the
`decodeMap` of the encoding), on the characters of the alphabet. -/
def b64Index (b : Byte) : Nat :=
  if 65 ≤ b.val ∧ b.val ≤ 90 then b.val - 65
  else if 97 ≤ b.val ∧ b.val ≤ 122 then b.val - 71
  else if 48 ≤ b.val ∧ b.val ≤ 57 then b.val + 4
  else if b.val = 43 then 62
  else 63

/-- `base64.StdEncoding.EncodeToString`: each 3 bytes give 4 characters
(`val = b0<<16 | b1<<8 | b2`, then `val>>18`, `val>>12`, `val>>6`, `val`, each
`& 0x3F`); a remainder of 1 or 2 bytes is padded with `'='`. -/
def EncodeToString : List Byte → GoString
  | a :: b :: c :: rest =>
      b64Char ((a.val * 65536 + b.val * 256 + c.val) / 262144)
        :: b64Char ((a.val * 65536 + b.val * 256 + c.val) / 4096)
        :: b64Char ((a.val * 65536 + b.val * 256 + c.val) / 64)
        :: b64Char (a.val * 65536 + b.val * 256 + c.val)
        :: EncodeToString rest
  | [a, b] =>
      [b64Char ((a.val * 65536 + b.val * 256) / 262144),
       b64Char ((a.val * 65536 + b.val * 256) / 4096),
       b64Char ((a.val * 65536 + b.val * 256) / 64), stdPadding]
  | [a] =>
      [b64Char ((a.val * 65536) / 262144), b64Char ((a.val * 65536) / 4096),
       stdPadding, stdPadding]
  | [] => []

/-- `subtle.ConstantTimeCompare(x, y)`: 0 when the lengths differ, otherwise
the OR of the XORs of all byte pairs is compared with zero. -/
def ConstantTimeCompare (x y : List Byte) : Nat :=
  if x.length ≠ y.length then 0
  else if (List.zip x y).foldl (fun v p => v ||| (p.1.val ^^^ p.2.val)) 0 = 0 then 1
  else 0

/-- `hmac.Equal(mac1, mac2)`: `subtle.ConstantTimeCompare(mac1, mac2) == 1`. -/
def hmacEqual (mac1 mac2 : List Byte) : Bool :=
  ConstantTimeCompare mac1 mac2 == 1

/-! ## The digests, HMAC and PBKDF2 -/

/-- Reduction of a word to 32 bits. -/
def mod32 (x : Nat) : Nat := x % 4294967296

/-- Rotation of a 32-bit word to the right. -/
def rotr32 (x n : Nat) : Nat := mod32 (x >>> n ||| x <<< (32 - n))

/-- Rotation of a 32-bit word to the left. -/
def rotl32 (x n : Nat) : Nat := mod32 (x <<< n ||| x >>> (32 - n))

/-- Bitwise complement of a 32-bit word. -/
def not32 (x : Nat) : Nat := 4294967295 - mod32 x

/-- The four bytes of a 32-bit word, big-endian. -/
def be32 (w : Nat) : List Byte :=
  [Fin.ofNat (w >>> 24), Fin.ofNat (w >>> 16), Fin.ofNat (w >>> 8), Fin.ofNat w]

/-- The eight bytes of a 64-bit word, big-endian. -/
def be64 (w : Nat) : List Byte := be32 (w >>> 32) ++ be32 w

/-- The big-endian 32-bit words of a byte sequence. -/
def wordsOfBytes : List Byte → List Nat
  | a :: b :: c :: d :: rest =>
      (a.val <<< 24 ||| b.val <<< 16 ||| c.val <<< 8 ||| d.val) :: wordsOfBytes rest
  | _ => []

/-- Merkle-Damgard padding of SHA-1 and SHA-256: `0x80`, zeros up to 56
modulo 64, then the bit length on 8 bytes. -/
def mdPad (msg : List Byte) : List Byte :=
  msg ++ (128 : Byte) ::
    (List.replicate ((119 - msg.length % 64) % 64) (0 : Byte) ++ be64 (msg.length * 8))

/-- The 16-word blocks of a padded message. -/
def blocks16 : Nat → List Nat → List (List Nat)
  | 0, _ => []
  | fuel + 1, ws => if ws.isEmpty then [] else ws.take 16 :: blocks16 fuel (ws.drop 16)

/-- The round constants of SHA-256. -/
def sha256K : List Nat := [
  0x428A2F98, 0x71374491, 0xB5C0FBCF, 0xE9B5DBA5, 0x3956C25B, 0x59F111F1, 0x923F82A4, 0xAB1C5ED5,
  0xD807AA98, 0x12835B01, 0x243185BE, 0x550C7DC3, 0x72BE5D74, 0x80DEB1FE, 0x9BDC06A7, 0xC19BF174,
  0xE49B69C1, 0xEFBE4786, 0x0FC19DC6, 0x240CA1CC, 0x2DE92C6F, 0x4A7484AA, 0x5CB0A9DC, 0x76F988DA,
  0x983E5152, 0xA831C66D, 0xB00327C8, 0xBF597FC7, 0xC6E00BF3, 0xD5A79147, 0x06CA6351, 0x14292967,
  0x27B70A85, 0x2E1B2138, 0x4D2C6DFC, 0x53380D13, 0x650A7354, 0x766A0ABB, 0x81C2C92E, 0x92722C85,
  0xA2BFE8A1, 0xA81A664B, 0xC24B8B70, 0xC76C51A3, 0xD192E819, 0xD6990624, 0xF40E3585, 0x106AA070,
  0x19A4C116, 0x1E376C08, 0x2748774C, 0x34B0BCB5, 0x391C0CB3, 0x4ED8AA4A, 0x5B9CCA4F, 0x682E6FF3,
  0x748F82EE, 0x78A5636F, 0x84C87814, 0x8CC70208, 0x90BEFFFA, 0xA4506CEB, 0xBEF9A3F7, 0xC67178F2]

/-- The initial hash value of SHA-256. -/
def sha256Init : List Nat := [
  0x6a09e667, 0xbb67ae85, 0x3c6ef372, 0xa54ff53a, 0x510e527f, 0x9b05688c, 0x1f83d9ab, 0x5be0cd19]

/-- The message schedule of SHA-256: 16 block words extended to 64. -/
def sha256Schedule (block : List Nat) : List Nat :=
  (List.range 48).foldl (fun w i =>
    let x15 := w.getD (i + 1) 0
    let x2 := w.getD (i + 14) 0
    let s0 := rotr32 x15 7 ^^^ rotr32 x15 18 ^^^ (x15 >>> 3)
    let s1 := rotr32 x2 17 ^^^ rotr32 x2 19 ^^^ (x2 >>> 10)
    w ++ [mod32 (s1 + w.getD (i + 9) 0 + s0 + w.getD i 0)]) block

/-- One round of the SHA-256 compression on the working variables `a..h`. -/
def sha256Round (s : List Nat) (kw : Nat × Nat) : List Nat :=
  match s with
  | [a, b, c, d, e, f, g, h] =>
      let t1 := h + (rotr32 e 6 ^^^ rotr32 e 11 ^^^ rotr32 e 25) + ((e &&& f) ^^^ (not32 e &&& g))
                  + kw.1 + kw.2
      let t2 := (rotr32 a 2 ^^^ rotr32 a 13 ^^^ rotr32 a 22) + ((a &&& b) ^^^ (a &&& c) ^^^ (b &&& c))
      [mod32 (t1 + t2), a, b, c, mod32 (d + t1), e, f, g]
  | _ => s

/-- The SHA-256 compression function on one block. -/
def sha256Block (h : List Nat) (block : List Nat) : List Nat :=
  List.zipWith (fun x y => mod32 (x + y)) h
    ((List.zip sha256K (sha256Schedule block)).foldl sha256Round h)

/-- `sha256.Sum256`: the SHA-256 digest of a message, 32 bytes. -/
def sha256Sum (msg : List Byte) : List Byte :=
  ((blocks16 (wordsOfBytes (mdPad msg)).length (wordsOfBytes (mdPad msg))).foldl
    sha256Block sha256Init).flatMap be32

/-- The initial hash value of SHA-1. -/
def sha1Init : List Nat := [0x67452301, 0xEFCDAB89, 0x98BADCFE, 0x10325476, 0xC3D2E1F0]

/-- The message schedule of SHA-1: 16 block words extended to 80. -/
def sha1Schedule (block : List Nat) : List Nat :=
  (List.range 64).foldl (fun w i =>
    w ++ [rotl32 (w.getD (i + 13) 0 ^^^ w.getD (i + 8) 0 ^^^ w.getD (i + 2) 0 ^^^ w.getD i 0) 1])
    block

/-- One round of the SHA-1 compression on the working variables `a..e`; the
round function and constant change every 20 rounds. -/
def sha1Round (s : List Nat) (iw : Nat × Nat) : List Nat :=
  match s with
  | [a, b, c, d, e] =>
      let fk : Nat × Nat :=
        if iw.1 < 20 then ((b &&& c) ||| (not32 b &&& d), 0x5A827999)
        else if iw.1 < 40 then (b ^^^ c ^^^ d, 0x6ED9EBA1)
        else if iw.1 < 60 then ((b &&& c) ||| (b &&& d) ||| (c &&& d), 0x8F1BBCDC)
        else (b ^^^ c ^^^ d, 0xCA62C1D6)
      [mod32 (rotl32 a 5 + fk.1 + e + fk.2 + iw.2), a, rotl32 b 30, c, d]
  | _ => s

/-- The SHA-1 compression function on one block. -/
def sha1Block (h : List Nat) (block : List Nat) : List Nat :=
  List.zipWith (fun x y => mod32 (x + y)) h
    ((List.zip (List.range 80) (sha1Schedule block)).foldl sha1Round h)

/-- `sha1.Sum`: the SHA-1 digest of a message, 20 bytes. -/
def sha1Sum (msg : List Byte) : List Byte :=
  ((blocks16 (wordsOfBytes (mdPad msg)).length (wordsOfBytes (mdPad msg))).foldl
    sha1Block sha1Init).flatMap be32

/-- What `pbkdf2.Key` and `hmac.New` use of a `hash.Hash`: the digest of a
message, `Size()` and `BlockSize()`. -/
structure HashFn where
  /-- The digest of a message. -/
  sum : List Byte → List Byte
  /-- Number of bytes of a digest. -/
  size : Nat
  /-- Block size of the digest, in bytes. -/
  blockSize : Nat

/-- `sha256.New`, with `sha256.Size = 32` and `sha256.BlockSize = 64`. -/
def sha256New : HashFn := ⟨sha256Sum, 32, 64⟩

/-- `sha1.New`, with `sha1.Size = 20` and `sha1.BlockSize = 64`. -/
def sha1New : HashFn := ⟨sha1Sum, 20, 64⟩

/-- The key block of `hmac.New(h, key)`: a key longer than the block size is
replaced by its digest, then the key is copied into a zeroed block of
`BlockSize()` bytes. -/
def hmacKeyBlock (h : HashFn) (key : List Byte) : List Byte :=
  ((if key.length > h.blockSize then h.sum key else key) ++
    List.replicate h.blockSize (0 : Byte)).take h.blockSize

/-- XOR of every byte of a block with a constant (`ipad`, `opad`). -/
def xorBytes (c : Nat) (k : List Byte) : List Byte := k.map (fun b => Fin.ofNat (b.val ^^^ c))

/-- The MAC of `msg` under `hmac.New(h, key)`:
`H((K xor opad) || H((K xor ipad) || msg))`. -/
def hmacSum (h : HashFn) (key msg : List Byte) : List Byte :=
  h.sum (xorBytes 0x5c (hmacKeyBlock h key) ++ h.sum (xorBytes 0x36 (hmacKeyBlock h key) ++ msg))

/-- The inner loop of `pbkdf2.Key`, `for n := 2; n <= iter; n++`:
`U = PRF(U)` and `T ^= U`, the first argument counting the passes left. -/
def pbkdf2Loop (prf : List Byte → List Byte) : Nat → List Byte → List Byte → List Byte
  | 0, _, t => t
  | n + 1, u, t =>
      pbkdf2Loop prf n (prf u) (List.zipWith (fun x y => Fin.ofNat (x.val ^^^ y.val)) t (prf u))

/-- `pbkdf2.Key(password, salt, iter, keyLen, h)`: for each block,
`U_1 = PRF(password, salt || uint32(block))` and `T = U_1 ^ ... ^ U_iter`
(the inner loop does not run when `iter <= 1`); the blocks are
concatenated and cut to `keyLen` bytes. -/
def pbkdf2Key (password salt : List Byte) (iter : Int) (keyLen : Nat) (h : HashFn) : List Byte :=
  ((List.range ((keyLen + h.size - 1) / h.size)).flatMap (fun b =>
      pbkdf2Loop (hmacSum h password) (iter - 1).toNat
        (hmacSum h password (salt ++ be32 (b + 1)))
        (hmacSum h password (salt ++ be32 (b + 1))))).take keyLen

/-! ## The source: `src/unchained.go` -/

/-- `b64encode`: standard padded base64 of the bytes. -/
def b64encode (bytes : List Byte) : GoString :=
  EncodeToString bytes

/-- `compareDigest`: `hmac.Equal([]byte(val1), []byte(val2))`. -/
def compareDigest (val1 val2 : GoString) : Bool :=
  hmacEqual val1 val2

/-- `hashAlgorithm`: `strings.Split(encoded, "$")[0]`; the index is in range
because `Split` gives at least one field (the default is never taken). -/
def hashAlgorithm (encoded : GoString) : GoString :=
  (Split encoded dollar).headD []

/-- `EncodePBKDF2SHA256`: the derived key of `sha256.Size` bytes, in base64,
under the format `"pbkdf2_sha256$%d$%s$%s"`. -/
def EncodePBKDF2SHA256 (password salt : GoString) (iterations : Int) : GoString :=
  str "pbkdf2_sha256$" ++ fmtInt iterations ++ str "$" ++ salt ++ str "$"
    ++ b64encode (pbkdf2Key password salt iterations 32 sha256New)

/-- `VerifyPBKDF2SHA256`: four fields, the tag `pbkdf2_sha256`, a count that
`Atoi` accepts; then the password is encoded again with the salt and count
of `encoded` and compared with `encoded`. -/
def VerifyPBKDF2SHA256 (password encoded : GoString) : Bool :=
  match Split encoded dollar with
  | [algorithm, iterations, salt, _] =>
      if algorithm ≠ str "pbkdf2_sha256" then false
      else
        match Atoi iterations with
        | none => false
        | some i => compareDigest (EncodePBKDF2SHA256 password salt i) encoded
  | _ => false

/-- `EncodePBKDF2SHA1`: the derived key of `sha1.Size` bytes, in base64, under
the format `"pbkdf2_sha1$%d$%s$%s"`. -/
def EncodePBKDF2SHA1 (password salt : GoString) (iterations : Int) : GoString :=
  str "pbkdf2_sha1$" ++ fmtInt iterations ++ str "$" ++ salt ++ str "$"
    ++ b64encode (pbkdf2Key password salt iterations 20 sha1New)

/-- `VerifyPBKDF2SHA1`: as `VerifyPBKDF2SHA256`, with the tag `pbkdf2_sha1`. -/
def VerifyPBKDF2SHA1 (password encoded : GoString) : Bool :=
  match Split encoded dollar with
  | [algorithm, iterations, salt, _] =>
      if algorithm ≠ str "pbkdf2_sha1" then false
      else
        match Atoi iterations with
        | none => false
        | some i => compareDigest (EncodePBKDF2SHA1 password salt i) encoded
  | _ => false

/-- `IsPasswordUsable`: false when `strings.HasPrefix("!", encoded)`, that is
when `encoded` is a prefix of `"!"`; otherwise true exactly on the ten tags of
the `switch`. -/
def IsPasswordUsable (encoded : GoString) : Bool :=
  if HasPrefix (str "!") encoded then false
  else if hashAlgorithm encoded = str "argon2"
      ∨ hashAlgorithm encoded = str "bcrypt"
      ∨ hashAlgorithm encoded = str "bcrypt_sha256"
      ∨ hashAlgorithm encoded = str "crypt"
      ∨ hashAlgorithm encoded = str "md5"
      ∨ hashAlgorithm encoded = str "pbkdf2_sha1"
      ∨ hashAlgorithm encoded = str "pbkdf2_sha256"
      ∨ hashAlgorithm encoded = str "sha1"
      ∨ hashAlgorithm encoded = str "unsalted_md5"
      ∨ hashAlgorithm encoded = str "unsalted_sha1" then true
  else false

/-- `CheckPassword`: `(false, nil)` on an unusable hash; otherwise the
`switch` on the tag: the two verifiers, the not-implemented error for the
eight other tags of the `switch`, and the invalid-hasher error after it. -/
def CheckPassword (password encoded : GoString) : Bool × Option GoString :=
  if !IsPasswordUsable encoded then (false, none)
  else if hashAlgorithm encoded = str "pbkdf2_sha256" then
    (VerifyPBKDF2SHA256 password encoded, none)
  else if hashAlgorithm encoded = str "pbkdf2_sha1" then
    (VerifyPBKDF2SHA1 password encoded, none)
  else if hashAlgorithm encoded = str "argon2"
      ∨ hashAlgorithm encoded = str "bcrypt"
      ∨ hashAlgorithm encoded = str "bcrypt_sha256"
      ∨ hashAlgorithm encoded = str "crypt"
      ∨ hashAlgorithm encoded = str "md5"
      ∨ hashAlgorithm encoded = str "sha1"
      ∨ hashAlgorithm encoded = str "unsalted_md5"
      ∨ hashAlgorithm encoded = str "unsalted_sha1" then
    (false, some (str "unchained: hasher not implemented " ++ hashAlgorithm encoded))
  else (false, some (str "unchained: invaid hasher " ++ hashAlgorithm encoded))

/-! ## The shape shared by the two hashers

The two encoders and the two verifiers of the source differ in the tag, the
key length and the digest only; the proofs go through this common form. -/

/-- The body of `EncodePBKDF2SHA256` and `EncodePBKDF2SHA1`, with the tag, the
key length and the digest as arguments. -/
def encodeWith (tag : GoString) (keyLen : Nat) (h : HashFn) (password salt : GoString)
    (iterations : Int) : GoString :=
  tag ++ dollar :: (fmtInt iterations ++ dollar ::
    (salt ++ dollar :: b64encode (pbkdf2Key password salt iterations keyLen h)))

/-- The body of `VerifyPBKDF2SHA256` and `VerifyPBKDF2SHA1`, with the tag, the
key length and the digest as arguments. -/
def verifyWith (tag : GoString) (keyLen : Nat) (h : HashFn) (password encoded : GoString) :
    Bool :=
  match Split encoded dollar with
  | [algorithm, iterations, salt, _] =>
      if algorithm ≠ tag then false
      else
        match Atoi iterations with
        | none => false
        | some i => compareDigest (encodeWith tag keyLen h password salt i) encoded
  | _ => false

/-! ## The words of the specification on the dispatch -/

/-- The ten recognized tags. -/
def recognizedTags : List GoString :=
  [str "argon2", str "bcrypt", str "bcrypt_sha256", str "crypt", str "md5", str "pbkdf2_sha1",
   str "pbkdf2_sha256", str "sha1", str "unsalted_md5", str "unsalted_sha1"]

/-- The eight tags that are recognized and have no hasher. -/
def unimplementedTags : List GoString :=
  [str "argon2", str "bcrypt", str "bcrypt_sha256", str "crypt", str "md5", str "sha1",
   str "unsalted_md5", str "unsalted_sha1"]

/-- The leading tag in the words of the specification: the text before the
first `'$'`, the whole string when it has none. -/
def leadingTag (encoded : GoString) : GoString :=
  encoded.takeWhile (fun b => b ≠ dollar)

/-- The usability check in the words of the specification, the sentinel test
in the intended direction: false when `encoded` begins with `'!'` or when
its leading tag is not recognized, true otherwise. -/
def IsPasswordUsableSpec (encoded : GoString) : Bool :=
  if HasPrefix encoded (str "!") then false
  else if leadingTag encoded ∈ recognizedTags then true
  else false

/-! ## The source with its index expressions checked

In Go an index expression `s[i]` panics at run time when `i` is out of
range. The functions below are the functions of the source again with every
index expression of the source checked: `none` is a run-time panic, `some r`
is a normal return of `r`. The library calls of the source do not panic on
any argument. -/

/-- `hashAlgorithm` with `strings.Split(encoded, "$")[0]` checked. -/
def hashAlgorithmOpt (encoded : GoString) : Option GoString :=
  (Split encoded dollar)[0]?

/-- `VerifyPBKDF2SHA256` with `s[0]`, `s[1]`, `s[2]` checked; they are read
after the test `len(s) != 4`. -/
def VerifyPBKDF2SHA256Opt (password encoded : GoString) : Option Bool :=
  if (Split encoded dollar).length ≠ 4 then some false
  else
    match (Split encoded dollar)[0]?, (Split encoded dollar)[1]?, (Split encoded dollar)[2]? with
    | some algorithm, some iterations, some salt =>
        if algorithm ≠ str "pbkdf2_sha256" then some false
        else
          match Atoi iterations with
          | none => some false
          | some i => some (compareDigest (EncodePBKDF2SHA256 password salt i) encoded)
    | _, _, _ => none

/-- `VerifyPBKDF2SHA1` with `s[0]`, `s[1]`, `s[2]` checked. -/
def VerifyPBKDF2SHA1Opt (password encoded : GoString) : Option Bool :=
  if (Split encoded dollar).length ≠ 4 then some false
  else
    match (Split encoded dollar)[0]?, (Split encoded dollar)[1]?, (Split encoded dollar)[2]? with
    | some algorithm, some iterations, some salt =>
        if algorithm ≠ str "pbkdf2_sha1" then some false
        else
          match Atoi iterations with
          | none => some false
          | some i => some (compareDigest (EncodePBKDF2SHA1 password salt i) encoded)
    | _, _, _ => none

/-- `IsPasswordUsable` over the checked `hashAlgorithm`. -/
def IsPasswordUsableOpt (encoded : GoString) : Option Bool :=
  if HasPrefix (str "!") encoded then some false
  else
    match hashAlgorithmOpt encoded with
    | none => none
    | some algorithm =>
        if algorithm = str "argon2"
            ∨ algorithm = str "bcrypt"
            ∨ algorithm = str "bcrypt_sha256"
            ∨ algorithm = str "crypt"
            ∨ algorithm = str "md5"
            ∨ algorithm = str "pbkdf2_sha1"
            ∨ algorithm = str "pbkdf2_sha256"
            ∨ algorithm = str "sha1"
            ∨ algorithm = str "unsalted_md5"
            ∨ algorithm = str "unsalted_sha1" then some true
        else some false

/-- `CheckPassword` over the checked functions: a panic in a callee is a
panic of the caller. -/
def CheckPasswordOpt (password encoded : GoString) : Option (Bool × Option GoString) :=
  match IsPasswordUsableOpt encoded with
  | none => none
  | some usable =>
      if !usable then some (false, none)
      else
        match hashAlgorithmOpt encoded with
        | none => none
        | some algorithm =>
            if algorithm = str "pbkdf2_sha256" then
              (VerifyPBKDF2SHA256Opt password encoded).map (fun r => (r, none))
            else if algorithm = str "pbkdf2_sha1" then
              (VerifyPBKDF2SHA1Opt password encoded).map (fun r => (r, none))
            else if algorithm = str "argon2"
                ∨ algorithm = str "bcrypt"
                ∨ algorithm = str "bcrypt_sha256"
                ∨ algorithm = str "crypt"
                ∨ algorithm = str "md5"
                ∨ algorithm = str "sha1"
                ∨ algorithm = str "unsalted_md5"
                ∨ algorithm = str "unsalted_sha1" then
              some (false, some (str "unchained: hasher not implemented " ++ algorithm))
            else some (false, some (str "unchained: invaid hasher " ++ algorithm))

/-! ## Splitting on the delimiter -/

theorem Split_ne_nil (s : GoString) (sep : Byte) : Split s sep ≠ [] := by
  induction s with
  | nil => simp [Split]
  | cons c cs ih =>
      unfold Split
      split
      · simp
      · split <;> simp

theorem Split_no_sep (a : GoString) (sep : Byte) (h : sep ∉ a) : Split a sep = [a] := by
  induction a with
  | nil => rfl
  | cons c cs ih =>
      have hc : c ≠ sep := fun e => h (by simp [e])
      have hcs : sep ∉ cs := fun e => h (by simp [e])
      simp [Split, hc, ih hcs]

theorem Split_append_sep (a rest : GoString) (sep : Byte) (h : sep ∉ a) :
    Split (a ++ sep :: rest) sep = a :: Split rest sep := by
  induction a with
  | nil => simp [Split]
  | cons c cs ih =>
      have hc : c ≠ sep := fun e => h (by simp [e])
      have hcs : sep ∉ cs := fun e => h (by simp [e])
      simp [Split, hc, ih hcs]

theorem Split_field_no_sep (s : GoString) (sep : Byte) :
    ∀ f ∈ Split s sep, sep ∉ f := by
  induction s with
  | nil => simp [Split]
  | cons c cs ih =>
      unfold Split
      split
      · intro f hf
        simp at hf
        rcases hf with rfl | hf
        · simp
        · exact ih f hf
      · rename_i hc
        split
        · intro f hf
          simp at hf
          subst hf
          simpa using fun e => hc e.symm
        · rename_i g gs hg
          intro f hf
          simp at hf
          rcases hf with rfl | hf
          · have := ih g (by simp [hg])
            simp only [List.mem_cons, not_or]
            exact ⟨fun e => hc e.symm, this⟩
          · exact ih f (by simp [hg, hf])

theorem intercalate_Split (s : GoString) (sep : Byte) :
    List.intercalate [sep] (Split s sep) = s := by
  induction s with
  | nil => simp [Split, List.intercalate]
  | cons c cs ih =>
      unfold Split
      split
      · rename_i hc
        have hne := Split_ne_nil cs sep
        cases hS : Split cs sep with
        | nil => exact absurd hS hne
        | cons g gs =>
            rw [hS] at ih
            simp [List.intercalate, List.intersperse] at ih ⊢
            simp [hc, ih]
      · split
        · rename_i hS
          exact absurd hS (Split_ne_nil cs sep)
        · rename_i g gs hS
          rw [hS] at ih
          cases gs with
          | nil => simpa [List.intercalate] using ih
          | cons g2 gs2 =>
              simp [List.intercalate, List.intersperse] at ih ⊢
              exact ih

/-! ## Decimal rendering and parsing -/

theorem parseDigits_append (xs ys : List Byte) :
    ∀ n, parseDigits n (xs ++ ys) = (parseDigits n xs).bind (fun m => parseDigits m ys) := by
  induction xs with
  | nil => intro n; simp [parseDigits]
  | cons c cs ih =>
      intro n
      simp only [List.cons_append, parseDigits]
      split
      · simp
      · exact ih _

theorem fmtDigits_acc (fuel : Nat) :
    ∀ u acc, u < fuel → fmtDigits fuel u acc = fmtDigits fuel u [] ++ acc := by
  induction fuel with
  | zero => intro u acc h; omega
  | succ f ih =>
      intro u acc h
      unfold fmtDigits
      split
      · rw [ih (u / 10) (_ :: acc) (by omega), ih (u / 10) [_] (by omega)]
        simp
      · simp

theorem parseDigits_fmtDigits (fuel : Nat) :
    ∀ u, u < fuel → parseDigits 0 (fmtDigits fuel u []) = some u := by
  induction fuel with
  | zero => intro u h; omega
  | succ f ih =>
      intro u h
      unfold fmtDigits
      split
      · rw [fmtDigits_acc f (u / 10) _ (by omega), parseDigits_append, ih (u / 10) (by omega)]
        simp [parseDigits, Fin.ofNat]
        omega
      · simp [parseDigits, Fin.ofNat]
        omega

theorem fmtDigits_digit (fuel : Nat) :
    ∀ u acc, u < fuel → ∀ b ∈ fmtDigits fuel u acc, b ∈ acc ∨ (48 ≤ b.val ∧ b.val ≤ 57) := by
  induction fuel with
  | zero => intro u acc h; omega
  | succ f ih =>
      intro u acc h b hb
      unfold fmtDigits at hb
      split at hb
      · rcases ih (u / 10) _ (by omega) b hb with h1 | h1
        · simp at h1
          rcases h1 with rfl | h1
          · right; simp [Fin.ofNat]; omega
          · left; exact h1
        · right; exact h1
      · simp at hb
        rcases hb with rfl | hb
        · right; simp [Fin.ofNat]; omega
        · left; exact hb

theorem fmtDigits_ne_nil (fuel u : Nat) (h : u < fuel) : fmtDigits fuel u [] ≠ [] := by
  cases fuel with
  | zero => omega
  | succ f =>
      unfold fmtDigits
      split
      · rw [fmtDigits_acc f (u / 10) _ (by omega)]
        simp
      · simp

theorem Atoi_fmtInt (n : Int) (hlo : minInt ≤ n) (hhi : n ≤ maxInt) :
    Atoi (fmtInt n) = some n := by
  have hp := parseDigits_fmtDigits (n.natAbs + 1) n.natAbs (by omega)
  have hne := fmtDigits_ne_nil (n.natAbs + 1) n.natAbs (by omega)
  have hdig := fmtDigits_digit (n.natAbs + 1) n.natAbs [] (by omega)
  unfold fmtInt
  split
  · rename_i hneg
    have hk : ((n.natAbs : Nat) : Int) = -n := by omega
    simp only [Atoi, true_or, if_true, hp]
    cases hD : fmtDigits (n.natAbs + 1) n.natAbs [] with
    | nil => exact absurd hD hne
    | cons d ds =>
        simp only [List.isEmpty_cons, Bool.false_eq_true, if_false]
        have : ((n.natAbs : Nat) : Int) ≤ -minInt := by
          unfold minInt at hlo ⊢
          omega
        rw [if_pos this, hk]
        simp
  · rename_i hpos
    have hk : ((n.natAbs : Nat) : Int) = n := by omega
    cases hD : fmtDigits (n.natAbs + 1) n.natAbs [] with
    | nil => exact absurd hD hne
    | cons d ds =>
        have hd := hdig d (by simp [hD])
        simp only [List.not_mem_nil, false_or] at hd
        have h45 : d ≠ 45 := by
          intro e
          rw [e] at hd
          exact absurd hd (by decide)
        have h43 : d ≠ 43 := by
          intro e
          rw [e] at hd
          exact absurd hd (by decide)
        rw [hD] at hp
        simp only [Atoi, h45, h43, or_self, if_false, List.isEmpty_cons, Bool.false_eq_true, hp]
        have : ((n.natAbs : Nat) : Int) ≤ maxInt := by
          rw [hk]
          exact hhi
        rw [if_pos this, hk]

theorem fmtInt_no_dollar (n : Int) : dollar ∉ fmtInt n := by
  have hdig := fmtDigits_digit (n.natAbs + 1) n.natAbs [] (by omega)
  intro hmem
  unfold fmtInt at hmem
  split at hmem
  · simp only [List.mem_cons] at hmem
    rcases hmem with h | h
    · exact absurd h (by decide)
    · have := hdig _ h
      simp only [List.not_mem_nil, false_or] at this
      exact absurd this (by decide)
  · have := hdig _ hmem
    simp only [List.not_mem_nil, false_or] at this
    exact absurd this (by decide)

/-! ## The constant-time comparison -/

theorem lor_eq_zero (a b : Nat) : a ||| b = 0 ↔ a = 0 ∧ b = 0 := by
  constructor
  · intro h
    have hbit : ∀ i, (a.testBit i || b.testBit i) = false := by
      intro i
      rw [← Nat.testBit_or, h, Nat.zero_testBit]
    constructor
    · apply Nat.eq_of_testBit_eq
      intro i
      have := hbit i
      simp only [Bool.or_eq_false_iff] at this
      simp [this.1]
    · apply Nat.eq_of_testBit_eq
      intro i
      have := hbit i
      simp only [Bool.or_eq_false_iff] at this
      simp [this.2]
  · rintro ⟨rfl, rfl⟩
    rfl

theorem foldl_lor_xor_eq_zero (ps : List (Byte × Byte)) :
    ∀ v, ps.foldl (fun v p => v ||| (p.1.val ^^^ p.2.val)) v = 0 ↔
      v = 0 ∧ ∀ p ∈ ps, p.1 = p.2 := by
  induction ps with
  | nil => intro v; simp
  | cons p ps ih =>
      intro v
      rw [List.foldl_cons, ih, lor_eq_zero, Nat.xor_eq_zero]
      simp only [List.mem_cons, forall_eq_or_imp, Fin.val_inj]
      tauto

theorem zip_all_eq (x : List Byte) :
    ∀ y, x.length = y.length → (∀ p ∈ List.zip x y, p.1 = p.2) → x = y := by
  induction x with
  | nil => intro y hl _; cases y with
    | nil => rfl
    | cons _ _ => simp at hl
  | cons a x ih =>
      intro y hl h
      cases y with
      | nil => simp at hl
      | cons b y =>
          simp only [List.zip_cons_cons, List.mem_cons, forall_eq_or_imp] at h
          simp only [List.length_cons, Nat.add_right_cancel_iff] at hl
          rw [h.1, ih y hl h.2]

theorem zip_self_eq (x : List Byte) : ∀ p ∈ List.zip x x, p.1 = p.2 := by
  induction x with
  | nil => simp
  | cons a x ih => simpa using ih

theorem ConstantTimeCompare_eq_one (x y : List Byte) :
    ConstantTimeCompare x y = 1 ↔ x = y := by
  unfold ConstantTimeCompare
  constructor
  · intro h
    split at h
    · simp at h
    · rename_i hl
      split at h
      · rename_i hz
        rw [foldl_lor_xor_eq_zero] at hz
        exact zip_all_eq x y (by simpa using hl) hz.2
      · simp at h
  · rintro rfl
    have hz := (foldl_lor_xor_eq_zero (List.zip x x) 0).2 ⟨rfl, zip_self_eq x⟩
    simp [hz]

theorem compareDigest_iff (val1 val2 : GoString) :
    compareDigest val1 val2 = true ↔ val1 = val2 := by
  simp [compareDigest, hmacEqual, ConstantTimeCompare_eq_one]

/-! ## base64 -/

theorem encodeStd_no_dollar : ∀ i : Fin 64, encodeStd.getD i.val 0 ≠ dollar := by
  decide

theorem encodeStd_no_padding : ∀ i : Fin 64, encodeStd.getD i.val 0 ≠ stdPadding := by
  decide

theorem b64Char_ne_dollar (v : Nat) : b64Char v ≠ dollar :=
  encodeStd_no_dollar ⟨v % 64, Nat.mod_lt _ (by decide)⟩

theorem b64Char_ne_padding (v : Nat) : b64Char v ≠ stdPadding :=
  encodeStd_no_padding ⟨v % 64, Nat.mod_lt _ (by decide)⟩

theorem EncodeToString_no_dollar : ∀ bytes : List Byte, dollar ∉ EncodeToString bytes
  | a :: b :: c :: rest => by
      have ih := EncodeToString_no_dollar rest
      simp only [EncodeToString, List.mem_cons, not_or]
      exact ⟨(b64Char_ne_dollar _).symm, (b64Char_ne_dollar _).symm, (b64Char_ne_dollar _).symm,
        (b64Char_ne_dollar _).symm, ih⟩
  | [a, b] => by
      simp only [EncodeToString, List.mem_cons, List.not_mem_nil, or_false, not_or]
      exact ⟨(b64Char_ne_dollar _).symm, (b64Char_ne_dollar _).symm, (b64Char_ne_dollar _).symm,
        by decide⟩
  | [a] => by
      simp only [EncodeToString, List.mem_cons, List.not_mem_nil, or_false, not_or]
      exact ⟨(b64Char_ne_dollar _).symm, (b64Char_ne_dollar _).symm, by decide, by decide⟩
  | [] => by simp [EncodeToString]

/-! ## The two hashers in their common form -/

theorem EncodePBKDF2SHA256_eq (password salt : GoString) (iterations : Int) :
    EncodePBKDF2SHA256 password salt iterations =
      encodeWith (str "pbkdf2_sha256") 32 sha256New password salt iterations := by
  have h1 : str "pbkdf2_sha256$" = str "pbkdf2_sha256" ++ [dollar] := by decide
  have h2 : str "$" = [dollar] := by decide
  simp [EncodePBKDF2SHA256, encodeWith, h1, h2]

theorem EncodePBKDF2SHA1_eq (password salt : GoString) (iterations : Int) :
    EncodePBKDF2SHA1 password salt iterations =
      encodeWith (str "pbkdf2_sha1") 20 sha1New password salt iterations := by
  have h1 : str "pbkdf2_sha1$" = str "pbkdf2_sha1" ++ [dollar] := by decide
  have h2 : str "$" = [dollar] := by decide
  simp [EncodePBKDF2SHA1, encodeWith, h1, h2]

theorem VerifyPBKDF2SHA256_eq (password encoded : GoString) :
    VerifyPBKDF2SHA256 password encoded =
      verifyWith (str "pbkdf2_sha256") 32 sha256New password encoded := by
  unfold VerifyPBKDF2SHA256 verifyWith
  simp only [EncodePBKDF2SHA256_eq]

theorem VerifyPBKDF2SHA1_eq (password encoded : GoString) :
    VerifyPBKDF2SHA1 password encoded =
      verifyWith (str "pbkdf2_sha1") 20 sha1New password encoded := by
  unfold VerifyPBKDF2SHA1 verifyWith
  simp only [EncodePBKDF2SHA1_eq]

theorem Split_encodeWith (tag : GoString) (keyLen : Nat) (h : HashFn)
    (password salt : GoString) (iterations : Int) (htag : dollar ∉ tag) (hsalt : dollar ∉ salt) :
    Split (encodeWith tag keyLen h password salt iterations) dollar =
      [tag, fmtInt iterations, salt,
        b64encode (pbkdf2Key password salt iterations keyLen h)] := by
  unfold encodeWith
  rw [Split_append_sep _ _ _ htag, Split_append_sep _ _ _ (fmtInt_no_dollar iterations),
    Split_append_sep _ _ _ hsalt, Split_no_sep (b64encode _) _ (EncodeToString_no_dollar _)]

theorem verifyWith_iff (tag : GoString) (keyLen : Nat) (h : HashFn)
    (password encoded : GoString) :
    verifyWith tag keyLen h password encoded = true ↔
      ∃ iterations salt digest i, Split encoded dollar = [tag, iterations, salt, digest] ∧
        Atoi iterations = some i ∧ encodeWith tag keyLen h password salt i = encoded := by
  unfold verifyWith
  constructor
  · intro hv
    split at hv
    · rename_i algorithm iterations salt digest hS
      split at hv
      · simp at hv
      · rename_i htag
        split at hv
        · simp at hv
        · rename_i i hi
          refine ⟨iterations, salt, digest, i, ?_, hi, (compareDigest_iff _ _).1 hv⟩
          rw [hS]
          simp only [ne_eq, Decidable.not_not] at htag
          rw [htag]
    · simp at hv
  · rintro ⟨iterations, salt, digest, i, hS, hi, he⟩
    rw [hS]
    simp only [ne_eq, not_true_eq_false, if_false, hi]
    exact (compareDigest_iff _ _).2 he

theorem verifyWith_encodeWith (tag : GoString) (keyLen : Nat) (h : HashFn)
    (password salt : GoString) (iterations : Int) (htag : dollar ∉ tag) (hsalt : dollar ∉ salt)
    (hlo : minInt ≤ iterations) (hhi : iterations ≤ maxInt) :
    verifyWith tag keyLen h password (encodeWith tag keyLen h password salt iterations)
      = true := by
  rw [verifyWith_iff]
  exact ⟨fmtInt iterations, salt, _, iterations,
    Split_encodeWith tag keyLen h password salt iterations htag hsalt,
    Atoi_fmtInt iterations hlo hhi, rfl⟩

theorem tag256_no_dollar : dollar ∉ str "pbkdf2_sha256" := by decide

theorem tag1_no_dollar : dollar ∉ str "pbkdf2_sha1" := by decide

/-! ## C1: round trip -/

/-- C1. Round trip, for both hashers: for every password, every salt without
`'$'` and every iteration count at least 1 (an `int`, so at most `maxInt`),
verifying the password against its own encoding gives true. -/
theorem verify_encode_roundtrip (password salt : GoString) (iterations : Int)
    (hsalt : dollar ∉ salt) (hpos : 1 ≤ iterations) (hint : iterations ≤ maxInt) :
    VerifyPBKDF2SHA256 password (EncodePBKDF2SHA256 password salt iterations) = true ∧
    VerifyPBKDF2SHA1 password (EncodePBKDF2SHA1 password salt iterations) = true := by
  have hlo : minInt ≤ iterations := by
    unfold minInt
    omega
  rw [VerifyPBKDF2SHA256_eq, EncodePBKDF2SHA256_eq, VerifyPBKDF2SHA1_eq, EncodePBKDF2SHA1_eq]
  exact ⟨verifyWith_encodeWith _ _ _ _ _ _ tag256_no_dollar hsalt hlo hint,
    verifyWith_encodeWith _ _ _ _ _ _ tag1_no_dollar hsalt hlo hint⟩

/-- Witness of C1 at the password `pw`, the salt `abc123` and 100000
iterations. -/
theorem verify_encode_roundtrip_witness :
    (dollar ∉ str "abc123" ∧ (1 : Int) ≤ 100000 ∧ (100000 : Int) ≤ maxInt) ∧
    VerifyPBKDF2SHA256 (str "pw") (EncodePBKDF2SHA256 (str "pw") (str "abc123") 100000) = true ∧
    VerifyPBKDF2SHA1 (str "pw") (EncodePBKDF2SHA1 (str "pw") (str "abc123") 100000) = true :=
  ⟨by decide, verify_encode_roundtrip (str "pw") (str "abc123") 100000
    (by decide) (by decide) (by decide)⟩

/-! ## C2: tamper sensitivity -/

theorem eq_of_Split_four (e a b c d : GoString) (hS : Split e dollar = [a, b, c, d]) :
    e = a ++ dollar :: (b ++ dollar :: (c ++ dollar :: d)) := by
  have h := intercalate_Split e dollar
  rw [hS] at h
  rw [← h]
  simp [List.intercalate, List.intersperse]

theorem set_ne_self (d : GoString) (i : Nat) (c : Byte) (hi : i < d.length)
    (hc : d[i]? ≠ some c) : d.set i c ≠ d := by
  intro h
  apply hc
  have h2 : (d.set i c)[i]? = some c := by
    simp [List.getElem?_set, hi]
  rw [h] at h2
  exact h2

theorem verifyWith_tamper (tag : GoString) (keyLen : Nat) (h : HashFn)
    (password e f0 f1 f2 d : GoString) (i : Nat) (c : Byte)
    (hS : Split e dollar = [f0, f1, f2, d]) (hi : i < d.length) (hc : d[i]? ≠ some c)
    (hv : verifyWith tag keyLen h password e = true) :
    verifyWith tag keyLen h password
      (f0 ++ dollar :: (f1 ++ dollar :: (f2 ++ dollar :: d.set i c))) = false := by
  have hf := Split_field_no_sep e dollar
  rw [hS] at hf
  have h0 : dollar ∉ f0 := hf f0 (by simp)
  have h1 : dollar ∉ f1 := hf f1 (by simp)
  have h2 : dollar ∉ f2 := hf f2 (by simp)
  have he := eq_of_Split_four e f0 f1 f2 d hS
  obtain ⟨it, salt, dg, k, hS1, hk, henc⟩ := (verifyWith_iff _ _ _ _ _).1 hv
  rw [hS] at hS1
  simp only [List.cons.injEq, and_true] at hS1
  obtain ⟨-, rfl, rfl, rfl⟩ := hS1
  cases hv2 : verifyWith tag keyLen h password
      (f0 ++ dollar :: (f1 ++ dollar :: (f2 ++ dollar :: d.set i c))) with
  | false => rfl
  | true =>
      exfalso
      obtain ⟨it2, salt2, dg2, k2, hS2, hk2, henc2⟩ := (verifyWith_iff _ _ _ _ _).1 hv2
      rw [Split_append_sep _ _ _ h0, Split_append_sep _ _ _ h1, Split_append_sep _ _ _ h2] at hS2
      simp only [List.cons.injEq] at hS2
      obtain ⟨-, rfl, rfl, -⟩ := hS2
      rw [hk] at hk2
      simp only [Option.some.injEq] at hk2
      subst hk2
      rw [henc] at henc2
      rw [he] at henc2
      simp only [List.append_cancel_left_eq, List.cons.injEq, true_and] at henc2
      exact set_ne_self d i c hi hc henc2.symm

/-- C2. Tamper sensitivity: when `e` verifies for the password and splits into
the four fields `f0 $ f1 $ f2 $ d`, replacing the character at any position `i`
of the digest field `d` by a different character `c` gives a string that does
not verify, for both hashers. -/
theorem verify_digest_tamper (password e f0 f1 f2 d : GoString) (i : Nat) (c : Byte)
    (hS : Split e dollar = [f0, f1, f2, d]) (hi : i < d.length) (hc : d[i]? ≠ some c) :
    (VerifyPBKDF2SHA256 password e = true →
      VerifyPBKDF2SHA256 password
        (f0 ++ dollar :: (f1 ++ dollar :: (f2 ++ dollar :: d.set i c))) = false) ∧
    (VerifyPBKDF2SHA1 password e = true →
      VerifyPBKDF2SHA1 password
        (f0 ++ dollar :: (f1 ++ dollar :: (f2 ++ dollar :: d.set i c))) = false) := by
  simp only [VerifyPBKDF2SHA256_eq, VerifyPBKDF2SHA1_eq]
  exact ⟨verifyWith_tamper _ _ _ _ _ _ _ _ _ _ _ hS hi hc,
    verifyWith_tamper _ _ _ _ _ _ _ _ _ _ _ hS hi hc⟩

set_option maxRecDepth 100000 in
/-- Witness of C2: the PBKDF2-SHA256 hash of `password` with the salt `salt`
and one iteration verifies, and no longer does once the first character of
its digest, `E`, is replaced by `F`. -/
theorem verify_digest_tamper_witness :
    (Split (str "pbkdf2_sha256$1$salt$Eg+2z/z4syxD5yJSVsT4N6hlSMkszDVICAWYfLcL4Xs=") dollar
        = [str "pbkdf2_sha256", str "1", str "salt",
            str "Eg+2z/z4syxD5yJSVsT4N6hlSMkszDVICAWYfLcL4Xs="] ∧
      0 < (str "Eg+2z/z4syxD5yJSVsT4N6hlSMkszDVICAWYfLcL4Xs=").length ∧
      (str "Eg+2z/z4syxD5yJSVsT4N6hlSMkszDVICAWYfLcL4Xs=")[0]? ≠ some (70 : Byte)) ∧
    VerifyPBKDF2SHA256 (str "password")
      (str "pbkdf2_sha256$1$salt$Eg+2z/z4syxD5yJSVsT4N6hlSMkszDVICAWYfLcL4Xs=") = true ∧
    VerifyPBKDF2SHA256 (str "password")
      (str "pbkdf2_sha256" ++ dollar :: (str "1" ++ dollar :: (str "salt" ++ dollar ::
        (str "Eg+2z/z4syxD5yJSVsT4N6hlSMkszDVICAWYfLcL4Xs=").set 0 70))) = false :=
  have hv : VerifyPBKDF2SHA256 (str "password")
      (str "pbkdf2_sha256$1$salt$Eg+2z/z4syxD5yJSVsT4N6hlSMkszDVICAWYfLcL4Xs=") = true := by
    decide
  ⟨by decide, hv,
    (verify_digest_tamper (str "password")
      (str "pbkdf2_sha256$1$salt$Eg+2z/z4syxD5yJSVsT4N6hlSMkszDVICAWYfLcL4Xs=")
      (str "pbkdf2_sha256") (str "1") (str "salt")
      (str "Eg+2z/z4syxD5yJSVsT4N6hlSMkszDVICAWYfLcL4Xs=") 0 70
      (by decide) (by decide) (by decide)).1 hv⟩

theorem b64Index_encodeStd : ∀ i : Fin 64, b64Index (encodeStd.getD i.val 0) = i.val := by
  decide

theorem b64Char_inj (u v : Nat) (h : b64Char u = b64Char v) : u % 64 = v % 64 := by
  have hu := b64Index_encodeStd ⟨u % 64, Nat.mod_lt _ (by decide)⟩
  have hv := b64Index_encodeStd ⟨v % 64, Nat.mod_lt _ (by decide)⟩
  unfold b64Char at h
  simp only at hu hv
  rw [← hu, ← hv, h]

theorem EncodeToString_injective :
    ∀ xs ys : List Byte, EncodeToString xs = EncodeToString ys → xs = ys := by
  intro xs
  induction xs using EncodeToString.induct with
  | case1 a b c rest ih =>
      intro ys h
      rcases ys with _ | ⟨a2, _ | ⟨b2, _ | ⟨c2, r2⟩⟩⟩
      · simp [EncodeToString] at h
      · simp only [EncodeToString, List.cons.injEq] at h
        exact absurd h.2.2.1 (b64Char_ne_padding _)
      · simp only [EncodeToString, List.cons.injEq] at h
        exact absurd h.2.2.2.1 (b64Char_ne_padding _)
      · simp only [EncodeToString, List.cons.injEq] at h
        obtain ⟨h1, h2, h3, h4, h5⟩ := h
        have e1 := b64Char_inj _ _ h1
        have e2 := b64Char_inj _ _ h2
        have e3 := b64Char_inj _ _ h3
        have e4 := b64Char_inj _ _ h4
        rw [ih r2 h5]
        have ha : a = a2 := by
          apply Fin.ext
          omega
        have hb : b = b2 := by
          apply Fin.ext
          omega
        have hc : c = c2 := by
          apply Fin.ext
          omega
        rw [ha, hb, hc]
  | case2 a b =>
      intro ys h
      rcases ys with _ | ⟨a2, _ | ⟨b2, _ | ⟨c2, r2⟩⟩⟩
      · simp [EncodeToString] at h
      · simp only [EncodeToString, List.cons.injEq] at h
        exact absurd h.2.2.1 (b64Char_ne_padding _)
      · simp only [EncodeToString, List.cons.injEq] at h
        obtain ⟨h1, h2, h3, -⟩ := h
        have e1 := b64Char_inj _ _ h1
        have e2 := b64Char_inj _ _ h2
        have e3 := b64Char_inj _ _ h3
        have ha : a = a2 := by
          apply Fin.ext
          omega
        have hb : b = b2 := by
          apply Fin.ext
          omega
        rw [ha, hb]
      · simp only [EncodeToString, List.cons.injEq] at h
        exact absurd h.2.2.2.1.symm (b64Char_ne_padding _)
  | case3 a =>
      intro ys h
      rcases ys with _ | ⟨a2, _ | ⟨b2, _ | ⟨c2, r2⟩⟩⟩
      · simp [EncodeToString] at h
      · simp only [EncodeToString, List.cons.injEq] at h
        obtain ⟨h1, h2, -⟩ := h
        have e1 := b64Char_inj _ _ h1
        have e2 := b64Char_inj _ _ h2
        have ha : a = a2 := by
          apply Fin.ext
          omega
        rw [ha]
      · simp only [EncodeToString, List.cons.injEq] at h
        exact absurd h.2.2.1.symm (b64Char_ne_padding _)
      · simp only [EncodeToString, List.cons.injEq] at h
        exact absurd h.2.2.1.symm (b64Char_ne_padding _)
  | case4 =>
      intro ys h
      rcases ys with _ | ⟨a2, _ | ⟨b2, _ | ⟨c2, r2⟩⟩⟩ <;> simp [EncodeToString] at h ⊢

/-! ## C3: another password -/

theorem Split_cons_sep (cs : GoString) (sep : Byte) :
    Split (sep :: cs) sep = [] :: Split cs sep := by
  simp [Split]

theorem Split_cons_ne (c : Byte) (cs : GoString) (sep : Byte) (h : c ≠ sep) :
    Split (c :: cs) sep =
      (c :: (Split cs sep).headD []) :: (Split cs sep).tail := by
  cases hS : Split cs sep with
  | nil => exact absurd hS (Split_ne_nil cs sep)
  | cons g gs => simp [Split, h, hS]

theorem Split_append (x y : GoString) (sep : Byte) :
    Split (x ++ sep :: y) sep = Split x sep ++ Split y sep := by
  induction x with
  | nil => simp [Split]
  | cons c cs ih =>
      rw [List.cons_append]
      by_cases hc : c = sep
      · subst hc
        rw [Split_cons_sep, Split_cons_sep, ih]
        rfl
      · rw [Split_cons_ne _ _ _ hc, Split_cons_ne _ _ _ hc, ih]
        cases hS : Split cs sep with
        | nil => exact absurd hS (Split_ne_nil cs sep)
        | cons g gs => rfl

theorem Split_singleton (s f : GoString) (sep : Byte) (h : Split s sep = [f]) : f = s := by
  have := intercalate_Split s sep
  rw [h] at this
  simpa [List.intercalate] using this

theorem Atoi_fmtInt_some (n k : Int) (h : Atoi (fmtInt n) = some k) : k = n := by
  have hp := parseDigits_fmtDigits (n.natAbs + 1) n.natAbs (by omega)
  have hne := fmtDigits_ne_nil (n.natAbs + 1) n.natAbs (by omega)
  have hdig := fmtDigits_digit (n.natAbs + 1) n.natAbs [] (by omega)
  unfold fmtInt at h
  split at h
  · rename_i hneg
    have hk : ((n.natAbs : Nat) : Int) = -n := by omega
    simp only [Atoi, true_or, if_true, hp] at h
    split at h
    · simp at h
    · split at h
      · simp only [Option.some.injEq] at h
        omega
      · simp at h
  · rename_i hpos
    have hk : ((n.natAbs : Nat) : Int) = n := by omega
    cases hD : fmtDigits (n.natAbs + 1) n.natAbs [] with
    | nil => exact absurd hD hne
    | cons d ds =>
        have hd := hdig d (by simp [hD])
        simp only [List.not_mem_nil, false_or] at hd
        have h45 : d ≠ 45 := by
          intro e
          rw [e] at hd
          exact absurd hd (by decide)
        have h43 : d ≠ 43 := by
          intro e
          rw [e] at hd
          exact absurd hd (by decide)
        rw [hD] at hp h
        simp only [Atoi, h45, h43, or_self, if_false, List.isEmpty_cons, Bool.false_eq_true,
          hp] at h
        split at h
        · simp only [Option.some.injEq] at h
          omega
        · simp at h

theorem pbkdf2Key_congr (h : HashFn) (p1 p2 salt : List Byte) (iter : Int) (keyLen : Nat)
    (hk : hmacKeyBlock h p1 = hmacKeyBlock h p2) :
    pbkdf2Key p1 salt iter keyLen h = pbkdf2Key p2 salt iter keyLen h := by
  have hs : hmacSum h p1 = hmacSum h p2 := by
    funext msg
    simp only [hmacSum, hk]
  simp only [pbkdf2Key, hs]

theorem verifyWith_other (tag : GoString) (keyLen : Nat) (h : HashFn)
    (p1 p2 salt : GoString) (n : Int) (htag : dollar ∉ tag)
    (hv : verifyWith tag keyLen h p1 (encodeWith tag keyLen h p2 salt n) = true) :
    pbkdf2Key p1 salt n keyLen h = pbkdf2Key p2 salt n keyLen h := by
  obtain ⟨it, salt2, dg, k, hS, hk, henc⟩ := (verifyWith_iff _ _ _ _ _).1 hv
  have hS2 : Split (encodeWith tag keyLen h p2 salt n) dollar =
      tag :: fmtInt n :: (Split salt dollar ++ [b64encode (pbkdf2Key p2 salt n keyLen h)]) := by
    unfold encodeWith
    rw [Split_append_sep _ _ _ htag, Split_append_sep _ _ _ (fmtInt_no_dollar n), Split_append,
      Split_no_sep (b64encode _) _ (EncodeToString_no_dollar _)]
  rw [hS2] at hS
  simp only [List.cons.injEq, true_and] at hS
  obtain ⟨rfl, hS3⟩ := hS
  have hk2 := Atoi_fmtInt_some n k hk
  subst hk2
  cases hsp : Split salt dollar with
  | nil => exact absurd hsp (Split_ne_nil _ _)
  | cons f fs =>
      rw [hsp] at hS3
      cases fs with
      | cons g gs =>
          have := congrArg List.length hS3
          simp at this
      | nil =>
          simp only [List.singleton_append, List.cons.injEq, and_true] at hS3
          obtain ⟨rfl, -⟩ := hS3
          have hf := Split_singleton salt f dollar hsp
          subst hf
          unfold encodeWith at henc
          simp only [List.append_cancel_left_eq, List.cons.injEq, true_and] at henc
          exact EncodeToString_injective _ _ henc

/-- C3, the claim as stated fails: the passwords `a` and `a` followed by a zero
byte are different, and each verifies against the encoding of the other, for
both hashers (HMAC pads a short key with zero bytes). -/
theorem verify_other_password_counterexample :
    str "a" ≠ str "a" ++ [0] ∧
    VerifyPBKDF2SHA256 (str "a") (EncodePBKDF2SHA256 (str "a" ++ [0]) (str "salt") 1) = true ∧
    VerifyPBKDF2SHA1 (str "a") (EncodePBKDF2SHA1 (str "a" ++ [0]) (str "salt") 1) = true := by
  have k256 : pbkdf2Key (str "a" ++ [0]) (str "salt") 1 32 sha256New =
      pbkdf2Key (str "a") (str "salt") 1 32 sha256New :=
    pbkdf2Key_congr _ _ _ _ _ _ (by decide)
  have k1 : pbkdf2Key (str "a" ++ [0]) (str "salt") 1 20 sha1New =
      pbkdf2Key (str "a") (str "salt") 1 20 sha1New :=
    pbkdf2Key_congr _ _ _ _ _ _ (by decide)
  refine ⟨by decide, ?_, ?_⟩
  · rw [VerifyPBKDF2SHA256_eq, EncodePBKDF2SHA256_eq]
    unfold encodeWith
    rw [k256]
    exact verifyWith_encodeWith _ _ _ _ _ _ tag256_no_dollar (by decide) (by decide) (by decide)
  · rw [VerifyPBKDF2SHA1_eq, EncodePBKDF2SHA1_eq]
    unfold encodeWith
    rw [k1]
    exact verifyWith_encodeWith _ _ _ _ _ _ tag1_no_dollar (by decide) (by decide) (by decide)

/-- C3, amended: for all passwords `p1`, `p2`, every salt and every iteration
count, when PBKDF2 derives different keys from `p1` and from `p2`, `p1` does
not verify against the encoding of `p2`, for both hashers. -/
theorem verify_other_password (p1 p2 salt : GoString) (iterations : Int) :
    (pbkdf2Key p1 salt iterations 32 sha256New ≠ pbkdf2Key p2 salt iterations 32 sha256New →
      VerifyPBKDF2SHA256 p1 (EncodePBKDF2SHA256 p2 salt iterations) = false) ∧
    (pbkdf2Key p1 salt iterations 20 sha1New ≠ pbkdf2Key p2 salt iterations 20 sha1New →
      VerifyPBKDF2SHA1 p1 (EncodePBKDF2SHA1 p2 salt iterations) = false) := by
  rw [VerifyPBKDF2SHA256_eq, EncodePBKDF2SHA256_eq, VerifyPBKDF2SHA1_eq, EncodePBKDF2SHA1_eq]
  constructor
  · intro hne
    cases hv : verifyWith (str "pbkdf2_sha256") 32 sha256New p1
        (encodeWith (str "pbkdf2_sha256") 32 sha256New p2 salt iterations) with
    | false => rfl
    | true => exact absurd (verifyWith_other _ _ _ _ _ _ _ tag256_no_dollar hv) hne
  · intro hne
    cases hv : verifyWith (str "pbkdf2_sha1") 20 sha1New p1
        (encodeWith (str "pbkdf2_sha1") 20 sha1New p2 salt iterations) with
    | false => rfl
    | true => exact absurd (verifyWith_other _ _ _ _ _ _ _ tag1_no_dollar hv) hne

set_option maxRecDepth 100000 in
/-- Witness of the amended C3: PBKDF2 derives different keys from the
passwords `a` and `b` (salt `salt`, one iteration), and `a` does not verify
against the encoding of `b`. -/
theorem verify_other_password_witness :
    (pbkdf2Key (str "a") (str "salt") 1 32 sha256New ≠
        pbkdf2Key (str "b") (str "salt") 1 32 sha256New ∧
      pbkdf2Key (str "a") (str "salt") 1 20 sha1New ≠
        pbkdf2Key (str "b") (str "salt") 1 20 sha1New) ∧
    VerifyPBKDF2SHA256 (str "a") (EncodePBKDF2SHA256 (str "b") (str "salt") 1) = false ∧
    VerifyPBKDF2SHA1 (str "a") (EncodePBKDF2SHA1 (str "b") (str "salt") 1) = false :=
  have h256 : pbkdf2Key (str "a") (str "salt") 1 32 sha256New ≠
      pbkdf2Key (str "b") (str "salt") 1 32 sha256New := by decide
  have h1 : pbkdf2Key (str "a") (str "salt") 1 20 sha1New ≠
      pbkdf2Key (str "b") (str "salt") 1 20 sha1New := by decide
  ⟨⟨h256, h1⟩, (verify_other_password (str "a") (str "b") (str "salt") 1).1 h256,
    (verify_other_password (str "a") (str "b") (str "salt") 1).2 h1⟩

/-! ## C4 and C5: malformed input and foreign tags -/

theorem parseDigits_non_digit (b : Byte) (hb : ¬(48 ≤ b.val ∧ b.val ≤ 57)) :
    ∀ (body : List Byte) (n : Nat), b ∈ body → parseDigits n body = none := by
  intro body
  induction body with
  | nil => intro n h; simp at h
  | cons c cs ih =>
      intro n h
      unfold parseDigits
      split
      · rfl
      · rename_i hc
        simp only [List.mem_cons] at h
        rcases h with rfl | h
        · exfalso
          omega
        · exact ih _ h

theorem Atoi_non_digit (s : GoString) (b : Byte) (hb : b ∈ s)
    (hnd : ¬(48 ≤ b.val ∧ b.val ≤ 57)) (hsign : b ≠ 45 ∧ b ≠ 43) : Atoi s = none := by
  cases s with
  | nil => rfl
  | cons c t =>
      have hbody : b ∈ (if c = 45 ∨ c = 43 then t else c :: t) := by
        split
        · rename_i hc
          simp only [List.mem_cons] at hb
          rcases hb with rfl | hb
          · rcases hc with hc | hc
            · exact absurd hc hsign.1
            · exact absurd hc hsign.2
          · exact hb
        · exact hb
      have hp := parseDigits_non_digit b hnd _ 0 hbody
      unfold Atoi
      simp only [hp, ite_self]

theorem Atoi_nil : Atoi [] = none := rfl

theorem Atoi_range (s : GoString) (k : Int) (h : Atoi s = some k) :
    minInt ≤ k ∧ k ≤ maxInt := by
  cases s with
  | nil => simp [Atoi] at h
  | cons c t =>
      unfold Atoi at h
      simp only at h
      generalize (if c = 45 ∨ c = 43 then t else c :: t) = body at h
      cases hp : parseDigits 0 body with
      | none =>
          rw [hp] at h
          simp at h
      | some u =>
          rw [hp] at h
          simp only at h
          by_cases he : body.isEmpty = true
          · rw [if_pos he] at h
            simp at h
          · rw [if_neg he] at h
            by_cases hc : c = 45
            · rw [if_pos hc] at h
              by_cases hle : (u : Int) ≤ -minInt
              · rw [if_pos hle] at h
                simp only [Option.some.injEq] at h
                unfold minInt maxInt at *
                omega
              · rw [if_neg hle] at h
                simp at h
            · rw [if_neg hc] at h
              by_cases hle : (u : Int) ≤ maxInt
              · rw [if_pos hle] at h
                simp only [Option.some.injEq] at h
                unfold minInt maxInt at *
                omega
              · rw [if_neg hle] at h
                simp at h

theorem Atoi_fmtInt_out_of_range (n : Int) (h : n < minInt ∨ maxInt < n) :
    Atoi (fmtInt n) = none := by
  cases hA : Atoi (fmtInt n) with
  | none => rfl
  | some k =>
      exfalso
      have hk := Atoi_fmtInt_some n k hA
      have hr := Atoi_range _ k hA
      subst hk
      omega

theorem verifyWith_malformed (tag : GoString) (keyLen : Nat) (h : HashFn)
    (password encoded : GoString)
    (hm : (Split encoded dollar).length ≠ 4 ∨ Atoi ((Split encoded dollar).getD 1 []) = none) :
    verifyWith tag keyLen h password encoded = false := by
  unfold verifyWith
  split
  · rename_i algorithm iterations salt digest hS
    rw [hS] at hm
    simp only [List.length_cons, List.length_nil, ne_eq, not_true_eq_false, false_or] at hm
    simp only [List.getD_cons_succ, List.getD_cons_zero] at hm
    rw [hm]
    simp
  · rfl

/-- C4. Malformed input fails closed: when `encoded` does not split on `'$'`
into exactly four fields, or its second field is rejected by `strconv.Atoi`,
both verifiers return false. -/
theorem verify_malformed (password encoded : GoString)
    (hm : (Split encoded dollar).length ≠ 4 ∨ Atoi ((Split encoded dollar).getD 1 []) = none) :
    VerifyPBKDF2SHA256 password encoded = false ∧ VerifyPBKDF2SHA1 password encoded = false := by
  rw [VerifyPBKDF2SHA256_eq, VerifyPBKDF2SHA1_eq]
  exact ⟨verifyWith_malformed _ _ _ _ _ hm, verifyWith_malformed _ _ _ _ _ hm⟩

/-- Witness of C4: four fields, the second of which, `12x`, is not a number. -/
theorem verify_malformed_witness :
    ((Split (str "pbkdf2_sha256$12x$salt$digest") dollar).length ≠ 4 ∨
      Atoi ((Split (str "pbkdf2_sha256$12x$salt$digest") dollar).getD 1 []) = none) ∧
    VerifyPBKDF2SHA256 (str "pw") (str "pbkdf2_sha256$12x$salt$digest") = false ∧
    VerifyPBKDF2SHA1 (str "pw") (str "pbkdf2_sha256$12x$salt$digest") = false :=
  ⟨by decide, verify_malformed (str "pw") (str "pbkdf2_sha256$12x$salt$digest") (by decide)⟩

theorem verifyWith_wrong_tag (tag : GoString) (keyLen : Nat) (h : HashFn)
    (password encoded : GoString) (ht : hashAlgorithm encoded ≠ tag) :
    verifyWith tag keyLen h password encoded = false := by
  unfold verifyWith
  split
  · rename_i algorithm iterations salt digest hS
    have : hashAlgorithm encoded = algorithm := by
      simp [hashAlgorithm, hS]
    rw [this] at ht
    simp [ht]
  · rfl

theorem hashAlgorithm_encodeWith (tag : GoString) (keyLen : Nat) (h : HashFn)
    (password salt : GoString) (iterations : Int) (htag : dollar ∉ tag) :
    hashAlgorithm (encodeWith tag keyLen h password salt iterations) = tag := by
  unfold hashAlgorithm encodeWith
  rw [Split_append_sep _ _ _ htag]
  rfl

/-- C5. A hasher rejects every hash that does not carry its own tag: a first
field other than `pbkdf2_sha256` makes `VerifyPBKDF2SHA256` false, a first
field other than `pbkdf2_sha1` makes `VerifyPBKDF2SHA1` false; in particular
neither verifier accepts an encoding made by the other encoder. -/
theorem verify_wrong_tag (password encoded salt : GoString) (iterations : Int) :
    (hashAlgorithm encoded ≠ str "pbkdf2_sha256" →
      VerifyPBKDF2SHA256 password encoded = false) ∧
    (hashAlgorithm encoded ≠ str "pbkdf2_sha1" →
      VerifyPBKDF2SHA1 password encoded = false) ∧
    VerifyPBKDF2SHA256 password (EncodePBKDF2SHA1 password salt iterations) = false ∧
    VerifyPBKDF2SHA1 password (EncodePBKDF2SHA256 password salt iterations) = false := by
  simp only [VerifyPBKDF2SHA256_eq, VerifyPBKDF2SHA1_eq, EncodePBKDF2SHA256_eq,
    EncodePBKDF2SHA1_eq]
  refine ⟨verifyWith_wrong_tag _ _ _ _ _, verifyWith_wrong_tag _ _ _ _ _, ?_, ?_⟩
  · apply verifyWith_wrong_tag
    rw [hashAlgorithm_encodeWith _ _ _ _ _ _ tag1_no_dollar]
    decide
  · apply verifyWith_wrong_tag
    rw [hashAlgorithm_encodeWith _ _ _ _ _ _ tag256_no_dollar]
    decide

/-- Witness of C5: a string tagged `bcrypt` carries neither tag and is
rejected by both verifiers. -/
theorem verify_wrong_tag_witness :
    (hashAlgorithm (str "bcrypt$1$salt$digest") ≠ str "pbkdf2_sha256" ∧
      hashAlgorithm (str "bcrypt$1$salt$digest") ≠ str "pbkdf2_sha1") ∧
    VerifyPBKDF2SHA256 (str "pw") (str "bcrypt$1$salt$digest") = false ∧
    VerifyPBKDF2SHA1 (str "pw") (str "bcrypt$1$salt$digest") = false :=
  ⟨by decide,
    (verify_wrong_tag (str "pw") (str "bcrypt$1$salt$digest") (str "salt") 1).1 (by decide),
    (verify_wrong_tag (str "pw") (str "bcrypt$1$salt$digest") (str "salt") 1).2.1 (by decide)⟩

/-! ## C6: usability -/

theorem HasPrefix_bang_left (encoded : GoString) :
    HasPrefix (str "!") encoded = true ↔ encoded = [] ∨ encoded = [bang] := by
  have hb : str "!" = [bang] := by decide
  rw [hb]
  rcases encoded with _ | ⟨c, _ | ⟨d, t⟩⟩
  · simp [HasPrefix]
  · simp [HasPrefix]
    exact eq_comm
  · simp [HasPrefix]

theorem HasPrefix_bang_right (encoded : GoString) :
    HasPrefix encoded (str "!") = true ↔ ∃ t, encoded = bang :: t := by
  have hb : str "!" = [bang] := by decide
  rw [hb]
  rcases encoded with _ | ⟨c, t⟩
  · simp [HasPrefix]
  · simp [HasPrefix]

theorem hashAlgorithm_eq_leadingTag (encoded : GoString) :
    hashAlgorithm encoded = leadingTag encoded := by
  unfold hashAlgorithm leadingTag
  induction encoded with
  | nil => rfl
  | cons c cs ih =>
      by_cases hc : c = dollar
      · subst hc
        rw [Split_cons_sep]
        simp
      · rw [Split_cons_ne _ _ _ hc, List.headD_cons, ih, List.takeWhile_cons]
        simp [hc]

theorem recognizedTags_head : ∀ t ∈ recognizedTags, t.head? ≠ some bang ∧ t ≠ [] := by
  decide

theorem IsPasswordUsable_iff (encoded : GoString) :
    IsPasswordUsable encoded = true ↔
      HasPrefix (str "!") encoded = false ∧ hashAlgorithm encoded ∈ recognizedTags := by
  unfold IsPasswordUsable
  cases hp : HasPrefix (str "!") encoded
  · simp [recognizedTags]
  · simp

theorem recognized_not_bang (encoded : GoString)
    (hr : leadingTag encoded ∈ recognizedTags) :
    HasPrefix (str "!") encoded = false ∧ HasPrefix encoded (str "!") = false := by
  have hh := recognizedTags_head _ hr
  constructor
  · cases hp : HasPrefix (str "!") encoded with
    | false => rfl
    | true =>
        exfalso
        rcases (HasPrefix_bang_left encoded).1 hp with rfl | rfl
        · exact hh.2 rfl
        · exact hh.1 (by decide)
  · cases hp : HasPrefix encoded (str "!") with
    | false => rfl
    | true =>
        exfalso
        obtain ⟨t, rfl⟩ := (HasPrefix_bang_right encoded).1 hp
        apply hh.1
        have : bang ≠ dollar := by decide
        simp [leadingTag, this]

/-- C6. Usability gating: `IsPasswordUsable encoded` is true exactly when
`encoded` does not begin with `'!'` and the text before its first `'$'` is
one of the ten recognized tags; so the check of the code, which tests whether
`"!"` starts with `encoded`, agrees on every input with the check in the
intended direction. -/
theorem IsPasswordUsable_spec (encoded : GoString) :
    (IsPasswordUsable encoded = true ↔
      HasPrefix encoded (str "!") = false ∧ leadingTag encoded ∈ recognizedTags) ∧
    IsPasswordUsable encoded = IsPasswordUsableSpec encoded := by
  have hiff : IsPasswordUsable encoded = true ↔
      HasPrefix encoded (str "!") = false ∧ leadingTag encoded ∈ recognizedTags := by
    rw [IsPasswordUsable_iff, hashAlgorithm_eq_leadingTag]
    constructor
    · rintro ⟨-, hr⟩
      exact ⟨(recognized_not_bang encoded hr).2, hr⟩
    · rintro ⟨-, hr⟩
      exact ⟨(recognized_not_bang encoded hr).1, hr⟩
  refine ⟨hiff, ?_⟩
  have hspec : IsPasswordUsableSpec encoded = true ↔
      HasPrefix encoded (str "!") = false ∧ leadingTag encoded ∈ recognizedTags := by
    unfold IsPasswordUsableSpec
    cases hp : HasPrefix encoded (str "!") <;> simp
  cases h1 : IsPasswordUsable encoded <;> cases h2 : IsPasswordUsableSpec encoded
  · rfl
  · exact absurd (hiff.2 (hspec.1 h2)) (by simp [h1])
  · exact absurd (hspec.2 (hiff.1 h1)) (by simp [h2])
  · rfl

/-! ## C7 to C10: the dispatch -/

theorem IsPasswordUsable_of_recognized (encoded : GoString)
    (hr : hashAlgorithm encoded ∈ recognizedTags) : IsPasswordUsable encoded = true := by
  rw [IsPasswordUsable_iff]
  refine ⟨?_, hr⟩
  rw [hashAlgorithm_eq_leadingTag] at hr
  exact (recognized_not_bang encoded hr).1

theorem IsPasswordUsable_of_bang (encoded : GoString)
    (hb : HasPrefix encoded (str "!") = true) : IsPasswordUsable encoded = false := by
  cases hu : IsPasswordUsable encoded with
  | false => rfl
  | true =>
      have hr := ((IsPasswordUsable_iff encoded).1 hu).2
      rw [hashAlgorithm_eq_leadingTag] at hr
      rw [(recognized_not_bang encoded hr).2] at hb
      exact absurd hb (by simp)

theorem CheckPassword_of_unusable (password encoded : GoString)
    (hu : IsPasswordUsable encoded = false) : CheckPassword password encoded = (false, none) := by
  simp [CheckPassword, hu]

theorem CheckPassword_sha256 (password encoded : GoString)
    (ht : hashAlgorithm encoded = str "pbkdf2_sha256") :
    CheckPassword password encoded = (VerifyPBKDF2SHA256 password encoded, none) := by
  have hu := IsPasswordUsable_of_recognized encoded (by rw [ht]; decide)
  simp [CheckPassword, hu, ht]

theorem CheckPassword_sha1 (password encoded : GoString)
    (ht : hashAlgorithm encoded = str "pbkdf2_sha1") :
    CheckPassword password encoded = (VerifyPBKDF2SHA1 password encoded, none) := by
  have hu := IsPasswordUsable_of_recognized encoded (by rw [ht]; decide)
  have hne : str "pbkdf2_sha1" ≠ str "pbkdf2_sha256" := by decide
  simp [CheckPassword, hu, ht, hne]

theorem CheckPassword_fst_other (password encoded : GoString)
    (h256 : hashAlgorithm encoded ≠ str "pbkdf2_sha256")
    (h1 : hashAlgorithm encoded ≠ str "pbkdf2_sha1") :
    (CheckPassword password encoded).1 = false := by
  unfold CheckPassword
  split
  · rfl
  · split <;> rfl

/-- C7. An unusable hash never matches and is not an error: when
`IsPasswordUsable encoded` is false, and in particular when `encoded` begins
with `'!'`, `CheckPassword` returns `(false, nil)`. -/
theorem CheckPassword_unusable (password encoded : GoString) :
    (IsPasswordUsable encoded = false → CheckPassword password encoded = (false, none)) ∧
    (HasPrefix encoded (str "!") = true → CheckPassword password encoded = (false, none)) :=
  ⟨CheckPassword_of_unusable password encoded,
    fun hb => CheckPassword_of_unusable password encoded (IsPasswordUsable_of_bang encoded hb)⟩

/-- Witness of C7: a PBKDF2 hash behind the sentinel `'!'` is unusable, and
`CheckPassword` returns `(false, nil)` on it. -/
theorem CheckPassword_unusable_witness :
    (IsPasswordUsable (str "!pbkdf2_sha256$1$salt$digest") = false ∧
      HasPrefix (str "!pbkdf2_sha256$1$salt$digest") (str "!") = true) ∧
    CheckPassword (str "pw") (str "!pbkdf2_sha256$1$salt$digest") = (false, none) :=
  ⟨by decide,
    (CheckPassword_unusable (str "pw") (str "!pbkdf2_sha256$1$salt$digest")).1 (by decide)⟩

/-- C8. Dispatch only matches through an implemented hasher: `CheckPassword`
reports a match exactly when the leading tag is `pbkdf2_sha256` and
`VerifyPBKDF2SHA256` accepts, or the leading tag is `pbkdf2_sha1` and
`VerifyPBKDF2SHA1` accepts; and under either tag the result is the answer of
that verifier with a nil error. -/
theorem CheckPassword_dispatch (password encoded : GoString) :
    ((CheckPassword password encoded).1 = true ↔
      (hashAlgorithm encoded = str "pbkdf2_sha256" ∧
        VerifyPBKDF2SHA256 password encoded = true) ∨
      (hashAlgorithm encoded = str "pbkdf2_sha1" ∧
        VerifyPBKDF2SHA1 password encoded = true)) ∧
    (hashAlgorithm encoded = str "pbkdf2_sha256" →
      CheckPassword password encoded = (VerifyPBKDF2SHA256 password encoded, none)) ∧
    (hashAlgorithm encoded = str "pbkdf2_sha1" →
      CheckPassword password encoded = (VerifyPBKDF2SHA1 password encoded, none)) := by
  refine ⟨?_, CheckPassword_sha256 password encoded, CheckPassword_sha1 password encoded⟩
  have hne : str "pbkdf2_sha1" ≠ str "pbkdf2_sha256" := by decide
  by_cases h256 : hashAlgorithm encoded = str "pbkdf2_sha256"
  · have h1 : hashAlgorithm encoded ≠ str "pbkdf2_sha1" := by
      rw [h256]
      exact hne.symm
    rw [CheckPassword_sha256 password encoded h256]
    simp [h256, hne.symm]
  · by_cases h1 : hashAlgorithm encoded = str "pbkdf2_sha1"
    · rw [CheckPassword_sha1 password encoded h1]
      simp [h1, hne]
    · rw [CheckPassword_fst_other password encoded h256 h1]
      simp [h256, h1]

/-- Witness of C8: under the tag `pbkdf2_sha1` the result of `CheckPassword` is
the answer of `VerifyPBKDF2SHA1` with a nil error. -/
theorem CheckPassword_dispatch_witness :
    hashAlgorithm (str "pbkdf2_sha1$1$salt$digest") = str "pbkdf2_sha1" ∧
    CheckPassword (str "pw") (str "pbkdf2_sha1$1$salt$digest") =
      (VerifyPBKDF2SHA1 (str "pw") (str "pbkdf2_sha1$1$salt$digest"), none) :=
  ⟨by decide,
    (CheckPassword_dispatch (str "pw") (str "pbkdf2_sha1$1$salt$digest")).2.2 (by decide)⟩

theorem unimplementedTags_recognized :
    ∀ t ∈ unimplementedTags,
      t ∈ recognizedTags ∧ t ≠ str "pbkdf2_sha256" ∧ t ≠ str "pbkdf2_sha1" := by
  decide

/-- C9. Recognized but unimplemented algorithms are reported as errors: when
the leading tag is one of the eight tags without a hasher, `CheckPassword`
returns no match together with the error whose message is
`unchained: hasher not implemented ` followed by that tag. -/
theorem CheckPassword_not_implemented (password encoded : GoString)
    (ht : hashAlgorithm encoded ∈ unimplementedTags) :
    CheckPassword password encoded =
      (false, some (str "unchained: hasher not implemented " ++ hashAlgorithm encoded)) := by
  obtain ⟨hr, h256, h1⟩ := unimplementedTags_recognized _ ht
  have hu := IsPasswordUsable_of_recognized encoded hr
  have hm : hashAlgorithm encoded = str "argon2"
      ∨ hashAlgorithm encoded = str "bcrypt"
      ∨ hashAlgorithm encoded = str "bcrypt_sha256"
      ∨ hashAlgorithm encoded = str "crypt"
      ∨ hashAlgorithm encoded = str "md5"
      ∨ hashAlgorithm encoded = str "sha1"
      ∨ hashAlgorithm encoded = str "unsalted_md5"
      ∨ hashAlgorithm encoded = str "unsalted_sha1" := by
    simpa [unimplementedTags] using ht
  unfold CheckPassword
  rw [hu, if_neg (by simp), if_neg h256, if_neg h1, if_pos hm]

/-- Witness of C9: a well-formed string tagged `bcrypt` gives the error
`unchained: hasher not implemented bcrypt`. -/
theorem CheckPassword_not_implemented_witness :
    hashAlgorithm (str "bcrypt$12$salt$digest") ∈ unimplementedTags ∧
    CheckPassword (str "pw") (str "bcrypt$12$salt$digest") =
      (false, some (str "unchained: hasher not implemented bcrypt")) :=
  ⟨by decide, CheckPassword_not_implemented (str "pw") (str "bcrypt$12$salt$digest") (by decide)⟩

/-- C10, the claim as stated fails: `foo$1$salt$digest` does not begin with
`'!'` and its leading tag `foo` is not recognized, yet `CheckPassword` returns
`(false, nil)`, a nil error. -/
theorem CheckPassword_unrecognized_counterexample :
    HasPrefix (str "foo$1$salt$digest") (str "!") = false ∧
    hashAlgorithm (str "foo$1$salt$digest") = str "foo" ∧
    str "foo" ∉ recognizedTags ∧
    CheckPassword (str "pw") (str "foo$1$salt$digest") = (false, none) := by
  decide

/-- C10, amended: when the leading tag of `encoded` is outside the ten
recognized tags, `CheckPassword` returns `(false, nil)`: no match and no
error, the hash being unusable. -/
theorem CheckPassword_unrecognized (password encoded : GoString)
    (ht : hashAlgorithm encoded ∉ recognizedTags) :
    CheckPassword password encoded = (false, none) := by
  apply CheckPassword_of_unusable
  cases hu : IsPasswordUsable encoded with
  | false => rfl
  | true => exact absurd ((IsPasswordUsable_iff encoded).1 hu).2 ht

/-- Witness of the amended C10 at `foo$1$salt$digest`. -/
theorem CheckPassword_unrecognized_witness :
    hashAlgorithm (str "foo$1$salt$digest") ∉ recognizedTags ∧
    CheckPassword (str "pw") (str "foo$1$salt$digest") = (false, none) :=
  ⟨by decide, CheckPassword_unrecognized (str "pw") (str "foo$1$salt$digest") (by decide)⟩

/-! ## C11: a negative count -/

/-- C11, the claim as stated fails: the encoding of `pw` under the salt `salt`
and the count -1 has four fields, its count field `-1` does not parse as a
non-negative integer, and both verifiers accept it. -/
theorem verify_negative_count_counterexample :
    Split (EncodePBKDF2SHA256 (str "pw") (str "salt") (-1)) dollar =
      [str "pbkdf2_sha256", str "-1", str "salt",
        b64encode (pbkdf2Key (str "pw") (str "salt") (-1) 32 sha256New)] ∧
    (¬∃ k : Int, 0 ≤ k ∧ Atoi (str "-1") = some k) ∧
    VerifyPBKDF2SHA256 (str "pw") (EncodePBKDF2SHA256 (str "pw") (str "salt") (-1)) = true ∧
    VerifyPBKDF2SHA1 (str "pw") (EncodePBKDF2SHA1 (str "pw") (str "salt") (-1)) = true := by
  have hf : fmtInt (-1) = str "-1" := by decide
  have hA : Atoi (str "-1") = some (-1) := by decide
  refine ⟨?_, ?_, ?_, ?_⟩
  · rw [EncodePBKDF2SHA256_eq, Split_encodeWith _ _ _ _ _ _ tag256_no_dollar (by decide), hf]
  · rintro ⟨k, hk, hk2⟩
    rw [hA] at hk2
    simp only [Option.some.injEq] at hk2
    omega
  · rw [VerifyPBKDF2SHA256_eq, EncodePBKDF2SHA256_eq]
    exact verifyWith_encodeWith _ _ _ _ _ _ tag256_no_dollar (by decide) (by decide) (by decide)
  · rw [VerifyPBKDF2SHA1_eq, EncodePBKDF2SHA1_eq]
    exact verifyWith_encodeWith _ _ _ _ _ _ tag1_no_dollar (by decide) (by decide) (by decide)

/-- C11, amended: a four-field string whose count field is rejected by
`strconv.Atoi` makes both verifiers return false; a negative count is
parsed, and for every password, every salt without `'$'` and every negative
`int` count the password verifies against its own encoding. -/
theorem verify_unparsable_count (password encoded salt : GoString) (n : Int) :
    ((Split encoded dollar).length = 4 → Atoi ((Split encoded dollar).getD 1 []) = none →
      VerifyPBKDF2SHA256 password encoded = false ∧ VerifyPBKDF2SHA1 password encoded = false) ∧
    (dollar ∉ salt → minInt ≤ n → n < 0 →
      VerifyPBKDF2SHA256 password (EncodePBKDF2SHA256 password salt n) = true ∧
      VerifyPBKDF2SHA1 password (EncodePBKDF2SHA1 password salt n) = true) := by
  rw [VerifyPBKDF2SHA256_eq, VerifyPBKDF2SHA1_eq, VerifyPBKDF2SHA256_eq, VerifyPBKDF2SHA1_eq,
    EncodePBKDF2SHA256_eq, EncodePBKDF2SHA1_eq]
  constructor
  · intro _ hA
    exact ⟨verifyWith_malformed _ _ _ _ _ (Or.inr hA), verifyWith_malformed _ _ _ _ _ (Or.inr hA)⟩
  · intro hsalt hlo hneg
    have hhi : n ≤ maxInt := by
      unfold maxInt
      omega
    exact ⟨verifyWith_encodeWith _ _ _ _ _ _ tag256_no_dollar hsalt hlo hhi,
      verifyWith_encodeWith _ _ _ _ _ _ tag1_no_dollar hsalt hlo hhi⟩

/-- Witness of the amended C11: the count field `x` is rejected, the count -1
is accepted. -/
theorem verify_unparsable_count_witness :
    ((Split (str "pbkdf2_sha256$x$salt$digest") dollar).length = 4 ∧
      Atoi ((Split (str "pbkdf2_sha256$x$salt$digest") dollar).getD 1 []) = none ∧
      dollar ∉ str "salt" ∧ minInt ≤ (-1 : Int) ∧ (-1 : Int) < 0) ∧
    (VerifyPBKDF2SHA256 (str "pw") (str "pbkdf2_sha256$x$salt$digest") = false ∧
      VerifyPBKDF2SHA1 (str "pw") (str "pbkdf2_sha256$x$salt$digest") = false) ∧
    (VerifyPBKDF2SHA256 (str "pw") (EncodePBKDF2SHA256 (str "pw") (str "salt") (-1)) = true ∧
      VerifyPBKDF2SHA1 (str "pw") (EncodePBKDF2SHA1 (str "pw") (str "salt") (-1)) = true) :=
  ⟨by decide,
    (verify_unparsable_count (str "pw") (str "pbkdf2_sha256$x$salt$digest") (str "salt") (-1)).1
      (by decide) (by decide),
    (verify_unparsable_count (str "pw") (str "pbkdf2_sha256$x$salt$digest") (str "salt") (-1)).2
      (by decide) (by decide) (by decide)⟩


/-! ## C12: wire format -/

theorem fmtDigits_head (fuel : Nat) :
    ∀ u acc, u < fuel → 0 < u → (fmtDigits fuel u acc).head? ≠ some 48 := by
  induction fuel with
  | zero => intro u acc h; omega
  | succ f ih =>
      intro u acc h hu
      unfold fmtDigits
      split
      · exact ih (u / 10) _ (by omega) (by omega)
      · rename_i hlt
        simp only [List.head?_cons, ne_eq, Option.some.injEq]
        intro e
        have := congrArg Fin.val e
        simp [Fin.ofNat] at this
        omega

theorem fmtInt_nonneg (n : Int) (hn : 0 ≤ n) :
    (∀ b ∈ fmtInt n, 48 ≤ b.val ∧ b.val ≤ 57) ∧
    parseDigits 0 (fmtInt n) = some n.toNat ∧
    (fmtInt n = str "0" ∨ (fmtInt n).head? ≠ some 48) := by
  have hk : n.natAbs = n.toNat := by omega
  have hf : fmtInt n = fmtDigits (n.toNat + 1) n.toNat [] := by
    unfold fmtInt
    rw [if_neg (by omega), hk]
  rw [hf]
  refine ⟨?_, parseDigits_fmtDigits _ _ (by omega), ?_⟩
  · intro b hb
    have := fmtDigits_digit _ _ [] (by omega) b hb
    simpa using this
  · by_cases h0 : n.toNat = 0
    · left
      rw [h0]
      decide
    · right
      exact fmtDigits_head _ _ [] (by omega) (by omega)

theorem digitChar_bytes : ∀ k : Fin 10,
    (String.utf8EncodeChar (Nat.digitChar k.val)).map (fun b => b.val) =
      [(Fin.ofNat (48 + k.val) : Byte)] := by
  decide

theorem fmtDigits_eq_toDigitsCore (fuel : Nat) :
    ∀ (u : Nat) (ds : List Char) (acc : List Byte),
      (ds.flatMap String.utf8EncodeChar).map (fun b => b.val) = acc →
      ((Nat.toDigitsCore 10 fuel u ds).flatMap String.utf8EncodeChar).map (fun b => b.val) =
        fmtDigits fuel u acc := by
  induction fuel with
  | zero => intro u ds acc h; simpa [Nat.toDigitsCore, fmtDigits] using h
  | succ f ih =>
      intro u ds acc h
      have hd := digitChar_bytes ⟨u % 10, Nat.mod_lt _ (by decide)⟩
      simp only at hd
      unfold Nat.toDigitsCore fmtDigits
      simp only
      by_cases hu : 10 ≤ u
      · rw [if_pos hu, if_neg (by omega)]
        apply ih
        rw [List.flatMap_cons, List.map_append, hd, h]
        rfl
      · rw [if_neg hu, if_pos (by omega)]
        rw [List.flatMap_cons, List.map_append, hd, h]
        have : u % 10 = u := by omega
        rw [this]
        rfl

theorem fmtInt_eq_repr (n : Int) (hn : 0 ≤ n) : fmtInt n = str (Nat.repr n.toNat) := by
  have hk : n.natAbs = n.toNat := by omega
  unfold fmtInt
  rw [if_neg (by omega), hk]
  unfold str Nat.repr Nat.toDigits
  exact (fmtDigits_eq_toDigitsCore _ _ [] [] rfl).symm


/-- C12. Wire format: for a salt without `'$'` and a count `n >= 0`, the output
of each encoder splits on `'$'` into exactly four fields: its tag, the decimal
rendering of `n` (digits only, no leading zero except for `0` itself), the salt
unchanged, and the padded base64 of the derived key, which has no `'$'`. -/
theorem encode_wire_format (password salt : GoString) (n : Int)
    (hsalt : dollar ∉ salt) (hn : 0 ≤ n) :
    Split (EncodePBKDF2SHA256 password salt n) dollar =
      [str "pbkdf2_sha256", fmtInt n, salt,
        EncodeToString (pbkdf2Key password salt n 32 sha256New)] ∧
    Split (EncodePBKDF2SHA1 password salt n) dollar =
      [str "pbkdf2_sha1", fmtInt n, salt,
        EncodeToString (pbkdf2Key password salt n 20 sha1New)] ∧
    fmtInt n = str (Nat.repr n.toNat) ∧
    (∀ b ∈ fmtInt n, 48 ≤ b.val ∧ b.val ≤ 57) ∧
    parseDigits 0 (fmtInt n) = some n.toNat ∧
    (fmtInt n = str "0" ∨ (fmtInt n).head? ≠ some 48) ∧
    dollar ∉ EncodeToString (pbkdf2Key password salt n 32 sha256New) ∧
    dollar ∉ EncodeToString (pbkdf2Key password salt n 20 sha1New) := by
  obtain ⟨hd, hp, hz⟩ := fmtInt_nonneg n hn
  refine ⟨?_, ?_, fmtInt_eq_repr n hn, hd, hp, hz, EncodeToString_no_dollar _,
    EncodeToString_no_dollar _⟩
  · rw [EncodePBKDF2SHA256_eq]
    exact Split_encodeWith _ _ _ _ _ _ tag256_no_dollar hsalt
  · rw [EncodePBKDF2SHA1_eq]
    exact Split_encodeWith _ _ _ _ _ _ tag1_no_dollar hsalt

/-- Witness of C12 at the password `pw`, the salt `abc123` and 100000
iterations: the second field is `100000`. -/
theorem encode_wire_format_witness :
    (dollar ∉ str "abc123" ∧ (0 : Int) ≤ 100000) ∧
    Split (EncodePBKDF2SHA256 (str "pw") (str "abc123") 100000) dollar =
      [str "pbkdf2_sha256", str "100000", str "abc123",
        EncodeToString (pbkdf2Key (str "pw") (str "abc123") 100000 32 sha256New)] :=
  ⟨by decide, (encode_wire_format (str "pw") (str "abc123") 100000 (by decide) (by decide)).1⟩

/-! ## C15: round trip through the dispatch -/

/-- C15. End-to-end round trip: for every password, every salt without `'$'`
and every count at least 1 (an `int`, so at most `maxInt`), `CheckPassword` on
the output of either encoder returns `(true, nil)`. -/
theorem CheckPassword_roundtrip (password salt : GoString) (iterations : Int)
    (hsalt : dollar ∉ salt) (hpos : 1 ≤ iterations) (hint : iterations ≤ maxInt) :
    CheckPassword password (EncodePBKDF2SHA256 password salt iterations) = (true, none) ∧
    CheckPassword password (EncodePBKDF2SHA1 password salt iterations) = (true, none) := by
  have hlo : minInt ≤ iterations := by
    unfold minInt
    omega
  constructor
  · rw [CheckPassword_sha256, VerifyPBKDF2SHA256_eq, EncodePBKDF2SHA256_eq,
      verifyWith_encodeWith _ _ _ _ _ _ tag256_no_dollar hsalt hlo hint]
    rw [EncodePBKDF2SHA256_eq]
    exact hashAlgorithm_encodeWith _ _ _ _ _ _ tag256_no_dollar
  · rw [CheckPassword_sha1, VerifyPBKDF2SHA1_eq, EncodePBKDF2SHA1_eq,
      verifyWith_encodeWith _ _ _ _ _ _ tag1_no_dollar hsalt hlo hint]
    rw [EncodePBKDF2SHA1_eq]
    exact hashAlgorithm_encodeWith _ _ _ _ _ _ tag1_no_dollar

/-- Witness of C15 at the password `pw`, the salt `abc123` and 100000
iterations. -/
theorem CheckPassword_roundtrip_witness :
    (dollar ∉ str "abc123" ∧ (1 : Int) ≤ 100000 ∧ (100000 : Int) ≤ maxInt) ∧
    CheckPassword (str "pw") (EncodePBKDF2SHA256 (str "pw") (str "abc123") 100000)
      = (true, none) ∧
    CheckPassword (str "pw") (EncodePBKDF2SHA1 (str "pw") (str "abc123") 100000)
      = (true, none) :=
  ⟨by decide, CheckPassword_roundtrip (str "pw") (str "abc123") 100000
    (by decide) (by decide) (by decide)⟩

/-! ## C13: no operation raises -/

theorem Split_length_pos (s : GoString) (sep : Byte) : 0 < (Split s sep).length :=
  List.length_pos.2 (Split_ne_nil s sep)

theorem hashAlgorithmOpt_eq (encoded : GoString) :
    hashAlgorithmOpt encoded = some (hashAlgorithm encoded) := by
  unfold hashAlgorithmOpt hashAlgorithm
  cases hS : Split encoded dollar with
  | nil => exact absurd hS (Split_ne_nil _ _)
  | cons f fs => simp

theorem VerifyPBKDF2SHA256Opt_eq (password encoded : GoString) :
    VerifyPBKDF2SHA256Opt password encoded = some (VerifyPBKDF2SHA256 password encoded) := by
  unfold VerifyPBKDF2SHA256Opt VerifyPBKDF2SHA256
  rcases hS : Split encoded dollar with _ | ⟨a, _ | ⟨b, _ | ⟨c, _ | ⟨d, _ | ⟨e, r⟩⟩⟩⟩⟩
  · simp
  · simp
  · simp
  · simp
  · simp only [List.length_cons, List.length_nil, ne_eq, not_true_eq_false, if_false]
    simp only [List.getElem?_cons_zero, List.getElem?_cons_succ]
    by_cases ha : a = str "pbkdf2_sha256"
    · cases hA : Atoi b <;> simp [ha]
    · simp [ha]
  · simp

theorem VerifyPBKDF2SHA1Opt_eq (password encoded : GoString) :
    VerifyPBKDF2SHA1Opt password encoded = some (VerifyPBKDF2SHA1 password encoded) := by
  unfold VerifyPBKDF2SHA1Opt VerifyPBKDF2SHA1
  rcases hS : Split encoded dollar with _ | ⟨a, _ | ⟨b, _ | ⟨c, _ | ⟨d, _ | ⟨e, r⟩⟩⟩⟩⟩
  · simp
  · simp
  · simp
  · simp
  · simp only [List.length_cons, List.length_nil, ne_eq, not_true_eq_false, if_false]
    simp only [List.getElem?_cons_zero, List.getElem?_cons_succ]
    by_cases ha : a = str "pbkdf2_sha1"
    · cases hA : Atoi b <;> simp [ha]
    · simp [ha]
  · simp

theorem IsPasswordUsableOpt_eq (encoded : GoString) :
    IsPasswordUsableOpt encoded = some (IsPasswordUsable encoded) := by
  unfold IsPasswordUsableOpt IsPasswordUsable
  rw [hashAlgorithmOpt_eq]
  simp only
  split
  · rfl
  · split <;> rfl

theorem CheckPasswordOpt_eq (password encoded : GoString) :
    CheckPasswordOpt password encoded = some (CheckPassword password encoded) := by
  unfold CheckPasswordOpt CheckPassword
  rw [IsPasswordUsableOpt_eq, hashAlgorithmOpt_eq, VerifyPBKDF2SHA256Opt_eq,
    VerifyPBKDF2SHA1Opt_eq]
  simp only [Option.map_some']
  split
  · rfl
  · split
    · rfl
    · split
      · rfl
      · split <;> rfl

/-- C13. No operation raises: on every password and every encoded string
(the empty one included) the functions of the source with their index
expressions checked return normally, with the result of the total functions;
`Split` always gives at least one field, and the verifiers read the indexes 0
to 2 only when there are four fields. -/
theorem no_operation_raises (password encoded : GoString) :
    0 < (Split encoded dollar).length ∧
    hashAlgorithmOpt encoded = some (hashAlgorithm encoded) ∧
    IsPasswordUsableOpt encoded = some (IsPasswordUsable encoded) ∧
    CheckPasswordOpt password encoded = some (CheckPassword password encoded) ∧
    VerifyPBKDF2SHA256Opt password encoded = some (VerifyPBKDF2SHA256 password encoded) ∧
    VerifyPBKDF2SHA1Opt password encoded = some (VerifyPBKDF2SHA1 password encoded) :=
  ⟨Split_length_pos encoded dollar, hashAlgorithmOpt_eq encoded, IsPasswordUsableOpt_eq encoded,
    CheckPasswordOpt_eq password encoded, VerifyPBKDF2SHA256Opt_eq password encoded,
    VerifyPBKDF2SHA1Opt_eq password encoded⟩

/-! ## C16 and C17: the count and the salt inside the encoding -/

theorem Split_encodeWith_fields (tag : GoString) (keyLen : Nat) (h : HashFn)
    (password salt : GoString) (n : Int) (htag : dollar ∉ tag) :
    Split (encodeWith tag keyLen h password salt n) dollar =
      tag :: fmtInt n :: (Split salt dollar ++ [b64encode (pbkdf2Key password salt n keyLen h)]) := by
  unfold encodeWith
  rw [Split_append_sep _ _ _ htag, Split_append_sep _ _ _ (fmtInt_no_dollar n), Split_append,
    Split_no_sep (b64encode _) _ (EncodeToString_no_dollar _)]

theorem Atoi_some_no_dollar (s : GoString) (k : Int) (h : Atoi s = some k) : dollar ∉ s := by
  intro hm
  have := Atoi_non_digit s dollar hm (by decide) (by decide)
  rw [this] at h
  simp at h

theorem Split_length_of_mem (s : GoString) (sep : Byte) (h : sep ∈ s) :
    2 ≤ (Split s sep).length := by
  induction s with
  | nil => simp at h
  | cons c cs ih =>
      by_cases hc : c = sep
      · subst hc
        rw [Split_cons_sep]
        have := List.length_pos.2 (Split_ne_nil cs c)
        simp only [List.length_cons]
        omega
      · have hcs : sep ∈ cs := by
          simp only [List.mem_cons] at h
          rcases h with h | h
          · exact absurd h.symm hc
          · exact h
        have := ih hcs
        rw [Split_cons_ne _ _ _ hc]
        simp only [List.length_cons, List.length_tail]
        omega

theorem verifyWith_count_canonical (tag : GoString) (keyLen : Nat) (h : HashFn)
    (password encoded : GoString) (htag : dollar ∉ tag)
    (hv : verifyWith tag keyLen h password encoded = true) :
    ∃ k, Atoi ((Split encoded dollar).getD 1 []) = some k ∧
      (Split encoded dollar).getD 1 [] = fmtInt k := by
  obtain ⟨it, salt, dg, k, hS, hk, henc⟩ := (verifyWith_iff _ _ _ _ _).1 hv
  have hS2 := Split_encodeWith_fields tag keyLen h password salt k htag
  rw [henc, hS] at hS2
  simp only [List.cons.injEq, true_and] at hS2
  refine ⟨k, ?_, ?_⟩
  · rw [hS]
    exact hk
  · rw [hS]
    exact hS2.1

theorem verifyWith_other_spelling (tag : GoString) (keyLen : Nat) (h : HashFn)
    (password salt it : GoString) (n : Int) (htag : dollar ∉ tag)
    (hA : Atoi it = some n) (hne : it ≠ fmtInt n) :
    verifyWith tag keyLen h password
      (tag ++ dollar :: (it ++ dollar ::
        (salt ++ dollar :: b64encode (pbkdf2Key password salt n keyLen h)))) = false := by
  cases hv : verifyWith tag keyLen h password
      (tag ++ dollar :: (it ++ dollar ::
        (salt ++ dollar :: b64encode (pbkdf2Key password salt n keyLen h)))) with
  | false => rfl
  | true =>
      exfalso
      obtain ⟨k, hk, hf⟩ := verifyWith_count_canonical _ _ _ _ _ htag hv
      rw [Split_append_sep _ _ _ htag, Split_append_sep _ _ _ (Atoi_some_no_dollar it n hA)]
        at hk hf
      simp only [List.getD_cons_succ, List.getD_cons_zero] at hk hf
      rw [hA] at hk
      simp only [Option.some.injEq] at hk
      subst hk
      exact hne hf

theorem verifyWith_salt_dollar (tag : GoString) (keyLen : Nat) (h : HashFn)
    (p q salt : GoString) (n : Int) (htag : dollar ∉ tag) (hs : dollar ∈ salt) :
    4 < (Split (encodeWith tag keyLen h p salt n) dollar).length ∧
    verifyWith tag keyLen h q (encodeWith tag keyLen h p salt n) = false := by
  have hl : 4 < (Split (encodeWith tag keyLen h p salt n) dollar).length := by
    rw [Split_encodeWith_fields _ _ _ _ _ _ htag]
    have := Split_length_of_mem salt dollar hs
    simp only [List.length_cons, List.length_append, List.length_nil]
    omega
  exact ⟨hl, verifyWith_malformed _ _ _ _ _ (Or.inl (by omega))⟩

/-- C16. Only the canonical spelling of the count is accepted: the encoding of
`password` under `salt` and `n` with its count field replaced by a string
`it` that `Atoi` also reads as `n` but that is not the rendering `%d` of `n`
does not verify; and whenever a string verifies, its count field is exactly
the rendering of the integer it parses to. Both hashers. -/
theorem verify_count_canonical (password salt it encoded : GoString) (n : Int) :
    (Atoi it = some n → it ≠ fmtInt n →
      VerifyPBKDF2SHA256 password
        (str "pbkdf2_sha256" ++ dollar :: (it ++ dollar :: (salt ++ dollar ::
          b64encode (pbkdf2Key password salt n 32 sha256New)))) = false ∧
      VerifyPBKDF2SHA1 password
        (str "pbkdf2_sha1" ++ dollar :: (it ++ dollar :: (salt ++ dollar ::
          b64encode (pbkdf2Key password salt n 20 sha1New)))) = false) ∧
    (VerifyPBKDF2SHA256 password encoded = true ∨ VerifyPBKDF2SHA1 password encoded = true →
      ∃ k, Atoi ((Split encoded dollar).getD 1 []) = some k ∧
        (Split encoded dollar).getD 1 [] = fmtInt k) ∧
    EncodePBKDF2SHA256 password salt n =
      str "pbkdf2_sha256" ++ dollar :: (fmtInt n ++ dollar :: (salt ++ dollar ::
        b64encode (pbkdf2Key password salt n 32 sha256New))) ∧
    EncodePBKDF2SHA1 password salt n =
      str "pbkdf2_sha1" ++ dollar :: (fmtInt n ++ dollar :: (salt ++ dollar ::
        b64encode (pbkdf2Key password salt n 20 sha1New))) := by
  refine ⟨?_, ?_, EncodePBKDF2SHA256_eq _ _ _, EncodePBKDF2SHA1_eq _ _ _⟩
  · intro hA hne
    rw [VerifyPBKDF2SHA256_eq, VerifyPBKDF2SHA1_eq]
    exact ⟨verifyWith_other_spelling _ _ _ _ _ _ _ tag256_no_dollar hA hne,
      verifyWith_other_spelling _ _ _ _ _ _ _ tag1_no_dollar hA hne⟩
  · rw [VerifyPBKDF2SHA256_eq, VerifyPBKDF2SHA1_eq]
    rintro (hv | hv)
    · exact verifyWith_count_canonical _ _ _ _ _ tag256_no_dollar hv
    · exact verifyWith_count_canonical _ _ _ _ _ tag1_no_dollar hv

/-- Witness of C16: `007` parses to 7 and is not the rendering of 7, so the
encoding for 7 iterations with the count written `007` does not verify. -/
theorem verify_count_canonical_witness :
    (Atoi (str "007") = some 7 ∧ str "007" ≠ fmtInt 7) ∧
    VerifyPBKDF2SHA256 (str "pw")
      (str "pbkdf2_sha256" ++ dollar :: (str "007" ++ dollar :: (str "salt" ++ dollar ::
        b64encode (pbkdf2Key (str "pw") (str "salt") 7 32 sha256New)))) = false ∧
    VerifyPBKDF2SHA1 (str "pw")
      (str "pbkdf2_sha1" ++ dollar :: (str "007" ++ dollar :: (str "salt" ++ dollar ::
        b64encode (pbkdf2Key (str "pw") (str "salt") 7 20 sha1New)))) = false :=
  ⟨by decide,
    (verify_count_canonical (str "pw") (str "salt") (str "007") [] 7).1 (by decide) (by decide)⟩

/-- C17. A salt containing `'$'` gives an encoding that can never be verified:
it splits into more than four fields, and both verifiers return false on it
for every password. -/
theorem verify_salt_with_dollar (p q salt : GoString) (n : Int) (hs : dollar ∈ salt) :
    VerifyPBKDF2SHA256 q (EncodePBKDF2SHA256 p salt n) = false ∧
    VerifyPBKDF2SHA1 q (EncodePBKDF2SHA1 p salt n) = false ∧
    4 < (Split (EncodePBKDF2SHA256 p salt n) dollar).length ∧
    4 < (Split (EncodePBKDF2SHA1 p salt n) dollar).length := by
  rw [VerifyPBKDF2SHA256_eq, VerifyPBKDF2SHA1_eq, EncodePBKDF2SHA256_eq, EncodePBKDF2SHA1_eq]
  exact ⟨(verifyWith_salt_dollar _ _ _ p q salt n tag256_no_dollar hs).2,
    (verifyWith_salt_dollar _ _ _ p q salt n tag1_no_dollar hs).2,
    (verifyWith_salt_dollar _ _ _ p q salt n tag256_no_dollar hs).1,
    (verifyWith_salt_dollar _ _ _ p q salt n tag1_no_dollar hs).1⟩

/-- Witness of C17 at the salt `sa$lt`. -/
theorem verify_salt_with_dollar_witness :
    dollar ∈ str "sa$lt" ∧
    VerifyPBKDF2SHA256 (str "pw") (EncodePBKDF2SHA256 (str "pw") (str "sa$lt") 1) = false ∧
    VerifyPBKDF2SHA1 (str "pw") (EncodePBKDF2SHA1 (str "pw") (str "sa$lt") 1) = false :=
  ⟨by decide,
    (verify_salt_with_dollar (str "pw") (str "pw") (str "sa$lt") 1 (by decide)).1,
    (verify_salt_with_dollar (str "pw") (str "pw") (str "sa$lt") 1 (by decide)).2.1⟩

/-! ## C18: the branch after the switch -/

theorem usable_tag_handled (encoded : GoString) (hu : IsPasswordUsable encoded = true) :
    hashAlgorithm encoded = str "pbkdf2_sha256" ∨ hashAlgorithm encoded = str "pbkdf2_sha1" ∨
      hashAlgorithm encoded ∈ unimplementedTags := by
  have hr := ((IsPasswordUsable_iff encoded).1 hu).2
  simp only [recognizedTags, unimplementedTags, List.mem_cons, List.mem_singleton,
    List.not_mem_nil, or_false] at hr ⊢
  tauto

theorem invalid_ne_not_implemented (t u : GoString) :
    str "unchained: invaid hasher " ++ t ≠ str "unchained: hasher not implemented " ++ u := by
  intro h
  have h2 := congrArg (fun l => l[11]?) h
  have e1 : (str "unchained: invaid hasher " ++ t)[11]? = some 105 := by
    rw [List.getElem?_append_left (by decide)]
    decide
  have e2 : (str "unchained: hasher not implemented " ++ u)[11]? = some 104 := by
    rw [List.getElem?_append_left (by decide)]
    decide
  simp only [e1, e2] at h2
  exact absurd h2 (by decide)

/-- C18. The invalid-hasher branch of `CheckPassword` is unreachable: a usable
string has a leading tag handled by a case of the `switch`, so `CheckPassword`
never returns the error `unchained: invaid hasher ...`; and it returns a
non-nil error exactly when the leading tag is one of the eight recognized
tags without a hasher. -/
theorem CheckPassword_error_iff (password encoded : GoString) :
    (IsPasswordUsable encoded = true →
      hashAlgorithm encoded = str "pbkdf2_sha256" ∨ hashAlgorithm encoded = str "pbkdf2_sha1" ∨
        hashAlgorithm encoded ∈ unimplementedTags) ∧
    (∀ t, (CheckPassword password encoded).2 ≠ some (str "unchained: invaid hasher " ++ t)) ∧
    ((CheckPassword password encoded).2 ≠ none ↔ hashAlgorithm encoded ∈ unimplementedTags) := by
  refine ⟨usable_tag_handled encoded, ?_⟩
  by_cases hm : hashAlgorithm encoded ∈ unimplementedTags
  · rw [CheckPassword_not_implemented password encoded hm]
    refine ⟨fun t e => ?_, by simp [hm]⟩
    simp only [Option.some.injEq] at e
    exact invalid_ne_not_implemented _ _ e.symm
  · have hnone : (CheckPassword password encoded).2 = none := by
      cases hu : IsPasswordUsable encoded with
      | false => rw [CheckPassword_of_unusable password encoded hu]
      | true =>
          rcases usable_tag_handled encoded hu with h | h | h
          · rw [CheckPassword_sha256 password encoded h]
          · rw [CheckPassword_sha1 password encoded h]
          · exact absurd h hm
    rw [hnone]
    exact ⟨fun t e => by simp at e, by simp [hm]⟩

/-- Witness of C18: a usable string tagged `md5` is handled by the third case
of the `switch`. -/
theorem CheckPassword_error_iff_witness :
    IsPasswordUsable (str "md5$salt$digest") = true ∧
    (hashAlgorithm (str "md5$salt$digest") = str "pbkdf2_sha256" ∨
      hashAlgorithm (str "md5$salt$digest") = str "pbkdf2_sha1" ∨
      hashAlgorithm (str "md5$salt$digest") ∈ unimplementedTags) :=
  ⟨by decide, (CheckPassword_error_iff (str "pw") (str "md5$salt$digest")).1 (by decide)⟩

/-! ## C19: the length of the digest field -/

theorem EncodeToString_length : ∀ bytes : List Byte,
    (EncodeToString bytes).length = 4 * ((bytes.length + 2) / 3)
  | a :: b :: c :: rest => by
      have ih := EncodeToString_length rest
      simp only [EncodeToString, List.length_cons, ih]
      omega
  | [a, b] => by simp [EncodeToString]
  | [a] => by simp [EncodeToString]
  | [] => by simp [EncodeToString]

theorem EncodeToString_no_padding_of_three : ∀ bytes : List Byte, bytes.length % 3 = 0 →
    stdPadding ∉ EncodeToString bytes
  | a :: b :: c :: rest, h => by
      have ih := EncodeToString_no_padding_of_three rest (by
        simp only [List.length_cons] at h
        omega)
      simp only [EncodeToString, List.mem_cons, not_or]
      exact ⟨(b64Char_ne_padding _).symm, (b64Char_ne_padding _).symm,
        (b64Char_ne_padding _).symm, (b64Char_ne_padding _).symm, ih⟩
  | [a, b], h => by simp at h
  | [a], h => by simp at h
  | [], _ => by simp [EncodeToString]

theorem EncodeToString_two_left : ∀ bytes : List Byte, bytes.length % 3 = 2 →
    ∃ pre c, EncodeToString bytes = pre ++ [c, stdPadding] ∧ c ≠ stdPadding ∧
      stdPadding ∉ pre
  | a :: b :: c :: rest, h => by
      obtain ⟨pre, d, he, hd, hp⟩ := EncodeToString_two_left rest (by
        simp only [List.length_cons] at h
        omega)
      refine ⟨b64Char ((a.val * 65536 + b.val * 256 + c.val) / 262144)
        :: b64Char ((a.val * 65536 + b.val * 256 + c.val) / 4096)
        :: b64Char ((a.val * 65536 + b.val * 256 + c.val) / 64)
        :: b64Char (a.val * 65536 + b.val * 256 + c.val) :: pre, d, ?_, hd, ?_⟩
      · simp only [EncodeToString, he, List.cons_append]
      · simp only [List.mem_cons, not_or]
        exact ⟨(b64Char_ne_padding _).symm, (b64Char_ne_padding _).symm,
          (b64Char_ne_padding _).symm, (b64Char_ne_padding _).symm, hp⟩
  | [a, b], _ => by
      refine ⟨[b64Char ((a.val * 65536 + b.val * 256) / 262144),
        b64Char ((a.val * 65536 + b.val * 256) / 4096)],
        b64Char ((a.val * 65536 + b.val * 256) / 64), rfl, b64Char_ne_padding _, ?_⟩
      simp only [List.mem_cons, List.not_mem_nil, or_false, not_or]
      exact ⟨(b64Char_ne_padding _).symm, (b64Char_ne_padding _).symm⟩
  | [a], h => by simp at h
  | [], h => by simp at h

theorem flatMap_be32_length (ws : List Nat) : (ws.flatMap be32).length = 4 * ws.length := by
  induction ws with
  | nil => rfl
  | cons w ws ih =>
      simp only [List.flatMap_cons, List.length_append, ih, List.length_cons]
      simp only [be32, List.length_cons, List.length_nil]
      omega

theorem sha256Round_length (s : List Nat) (kw : Nat × Nat) (h : s.length = 8) :
    (sha256Round s kw).length = 8 := by
  unfold sha256Round
  split
  · rfl
  · exact h

theorem foldl_sha256Round_length (l : List (Nat × Nat)) :
    ∀ s : List Nat, s.length = 8 → (l.foldl sha256Round s).length = 8 := by
  induction l with
  | nil => intro s h; exact h
  | cons kw l ih => intro s h; exact ih _ (sha256Round_length s kw h)

theorem sha256Block_length (h block : List Nat) (hl : h.length = 8) :
    (sha256Block h block).length = 8 := by
  unfold sha256Block
  rw [List.length_zipWith, foldl_sha256Round_length _ h hl, hl]
  rfl

theorem sha256Sum_length (msg : List Byte) : (sha256Sum msg).length = 32 := by
  have hfold : ∀ (bs : List (List Nat)) (s : List Nat), s.length = 8 →
      (bs.foldl sha256Block s).length = 8 := by
    intro bs
    induction bs with
    | nil => intro s h; exact h
    | cons b bs ih => intro s h; exact ih _ (sha256Block_length s b h)
  unfold sha256Sum
  rw [flatMap_be32_length, hfold _ _ (by decide)]

theorem sha1Round_length (s : List Nat) (iw : Nat × Nat) (h : s.length = 5) :
    (sha1Round s iw).length = 5 := by
  unfold sha1Round
  split
  · rfl
  · exact h

theorem foldl_sha1Round_length (l : List (Nat × Nat)) :
    ∀ s : List Nat, s.length = 5 → (l.foldl sha1Round s).length = 5 := by
  induction l with
  | nil => intro s h; exact h
  | cons iw l ih => intro s h; exact ih _ (sha1Round_length s iw h)

theorem sha1Block_length (h block : List Nat) (hl : h.length = 5) :
    (sha1Block h block).length = 5 := by
  unfold sha1Block
  rw [List.length_zipWith, foldl_sha1Round_length _ h hl, hl]
  rfl

theorem sha1Sum_length (msg : List Byte) : (sha1Sum msg).length = 20 := by
  have hfold : ∀ (bs : List (List Nat)) (s : List Nat), s.length = 5 →
      (bs.foldl sha1Block s).length = 5 := by
    intro bs
    induction bs with
    | nil => intro s h; exact h
    | cons b bs ih => intro s h; exact ih _ (sha1Block_length s b h)
  unfold sha1Sum
  rw [flatMap_be32_length, hfold _ _ (by decide)]

theorem pbkdf2Loop_length (prf : List Byte → List Byte) (len : Nat)
    (hprf : ∀ x, (prf x).length = len) :
    ∀ (n : Nat) (u t : List Byte), t.length = len → (pbkdf2Loop prf n u t).length = len := by
  intro n
  induction n with
  | zero => intro u t h; exact h
  | succ n ih =>
      intro u t h
      unfold pbkdf2Loop
      apply ih
      rw [List.length_zipWith, h, hprf]
      exact Nat.min_self _

theorem pbkdf2Key_length (h : HashFn) (password salt : List Byte) (iter : Int)
    (hsum : ∀ x, (h.sum x).length = h.size) (hpos : 0 < h.size) :
    (pbkdf2Key password salt iter h.size h).length = h.size := by
  have hprf : ∀ x, (hmacSum h password x).length = h.size := fun x => hsum _
  have hn : (h.size + h.size - 1) / h.size = 1 := by
    apply Nat.div_eq_of_lt_le <;> omega
  unfold pbkdf2Key
  rw [hn]
  have hr : List.range 1 = [0] := rfl
  rw [hr]
  simp only [List.flatMap_cons, List.flatMap_nil, List.append_nil, List.length_take]
  rw [pbkdf2Loop_length _ _ hprf _ _ _ (hprf _)]
  exact Nat.min_self _

theorem pbkdf2Key_sha256_length (password salt : List Byte) (iter : Int) :
    (pbkdf2Key password salt iter 32 sha256New).length = 32 :=
  pbkdf2Key_length sha256New password salt iter sha256Sum_length (by decide)

theorem pbkdf2Key_sha1_length (password salt : List Byte) (iter : Int) :
    (pbkdf2Key password salt iter 20 sha1New).length = 20 :=
  pbkdf2Key_length sha1New password salt iter sha1Sum_length (by decide)


theorem b64encode_shape (key : List Byte) (m : Nat) (hk : key.length = 3 * m + 2) :
    (b64encode key).length = 4 * m + 4 ∧
    ∃ pre c, b64encode key = pre ++ [c, stdPadding] ∧ c ≠ stdPadding ∧ stdPadding ∉ pre := by
  unfold b64encode
  refine ⟨?_, EncodeToString_two_left key (by omega)⟩
  rw [EncodeToString_length, hk]
  omega

theorem Split_encodeWith_getLast (tag : GoString) (keyLen : Nat) (h : HashFn)
    (password salt : GoString) (n : Int) (htag : dollar ∉ tag) :
    (Split (encodeWith tag keyLen h password salt n) dollar).getLast? =
      some (b64encode (pbkdf2Key password salt n keyLen h)) := by
  rw [Split_encodeWith_fields _ _ _ _ _ _ htag]
  have : tag :: fmtInt n ::
      (Split salt dollar ++ [b64encode (pbkdf2Key password salt n keyLen h)]) =
      (tag :: fmtInt n :: Split salt dollar) ++
        [b64encode (pbkdf2Key password salt n keyLen h)] := rfl
  rw [this, List.getLast?_append]
  rfl

/-- C19. The length of the digest field is fixed by the algorithm: the base64
of any key of 32 bytes has 44 characters and the base64 of any key of 20
bytes has 28, each ending in exactly one `'='`; PBKDF2 returns 32 bytes for
SHA-256 and 20 for SHA-1; so the digest field, the last field of the output of
`EncodePBKDF2SHA256`, has 44 characters ending in exactly one `'='`, and that
of `EncodePBKDF2SHA1` has 28 characters ending in exactly one `'='`. -/
theorem digest_field_length (password salt : GoString) (n : Int) :
    (∀ key : List Byte, key.length = 32 →
      (b64encode key).length = 44 ∧
      ∃ pre c, b64encode key = pre ++ [c, stdPadding] ∧ c ≠ stdPadding ∧ stdPadding ∉ pre) ∧
    (∀ key : List Byte, key.length = 20 →
      (b64encode key).length = 28 ∧
      ∃ pre c, b64encode key = pre ++ [c, stdPadding] ∧ c ≠ stdPadding ∧ stdPadding ∉ pre) ∧
    (pbkdf2Key password salt n 32 sha256New).length = 32 ∧
    (pbkdf2Key password salt n 20 sha1New).length = 20 ∧
    (∃ d, (Split (EncodePBKDF2SHA256 password salt n) dollar).getLast? = some d ∧
      d.length = 44 ∧
      ∃ pre c, d = pre ++ [c, stdPadding] ∧ c ≠ stdPadding ∧ stdPadding ∉ pre) ∧
    (∃ d, (Split (EncodePBKDF2SHA1 password salt n) dollar).getLast? = some d ∧
      d.length = 28 ∧
      ∃ pre c, d = pre ++ [c, stdPadding] ∧ c ≠ stdPadding ∧ stdPadding ∉ pre) := by
  have h32 : ∀ key : List Byte, key.length = 32 →
      (b64encode key).length = 44 ∧
      ∃ pre c, b64encode key = pre ++ [c, stdPadding] ∧ c ≠ stdPadding ∧ stdPadding ∉ pre :=
    fun key hk => b64encode_shape key 10 hk
  have h20 : ∀ key : List Byte, key.length = 20 →
      (b64encode key).length = 28 ∧
      ∃ pre c, b64encode key = pre ++ [c, stdPadding] ∧ c ≠ stdPadding ∧ stdPadding ∉ pre :=
    fun key hk => b64encode_shape key 6 hk
  have k32 := pbkdf2Key_sha256_length password salt n
  have k20 := pbkdf2Key_sha1_length password salt n
  refine ⟨h32, h20, k32, k20, ?_, ?_⟩
  · refine ⟨b64encode (pbkdf2Key password salt n 32 sha256New), ?_, h32 _ k32⟩
    rw [EncodePBKDF2SHA256_eq]
    exact Split_encodeWith_getLast _ _ _ _ _ _ tag256_no_dollar
  · refine ⟨b64encode (pbkdf2Key password salt n 20 sha1New), ?_, h20 _ k20⟩
    rw [EncodePBKDF2SHA1_eq]
    exact Split_encodeWith_getLast _ _ _ _ _ _ tag1_no_dollar

/-- Witness of C19 at a key of 32 zero bytes and a key of 20 zero bytes. -/
theorem digest_field_length_witness :
    ((List.replicate 32 (0 : Byte)).length = 32 ∧ (List.replicate 20 (0 : Byte)).length = 20) ∧
    (b64encode (List.replicate 32 (0 : Byte))).length = 44 ∧
    (b64encode (List.replicate 20 (0 : Byte))).length = 28 :=
  ⟨by decide,
    ((digest_field_length [] [] 1).1 (List.replicate 32 (0 : Byte)) (by decide)).1,
    ((digest_field_length [] [] 1).2.1 (List.replicate 20 (0 : Byte)) (by decide)).1⟩

end Unchained
